/-
Verification of the prediction-market tracker's matching and
opportunity-detection engine.

The embedding covers:
  * the text normalizers and the entity extractor of src/lib/matching.ts,
  * the bigram string-similarity measure of the string-similarity-js
    dependency (the exact algorithm the code imports as stringSimilarity),
  * calculateMatchScore / findAllMatches / groupMatches of src/lib/matching.ts,
  * the outcome aligner and the three opportunity detectors
    (matchOutcomes, detectCrossVenueDivergence, detectInternalSanity,
    detectArbitrage, detectOpportunities) and applyFreshnessDecay of the
    opportunities module.

Modelling conventions:
  * JS strings are List Char; JS toLowerCase is modelled on the ASCII range
    (Char.toLower), which is exact for every character class the regexes of
    this code base can match.
  * JS numbers are ℚ wherever the code only adds, multiplies, divides and
    compares (prices, scores of the matcher, spreads); the two places where
    the code uses transcendental functions (Math.log10 in the divergence
    severity, Math.pow with a real exponent in the freshness decay) are ℝ.
  * JS Map is an association list with Map.set semantics (replace the value
    in place if the key exists, append otherwise); JS Set of strings is a
    list queried only through membership.
  * Human-readable rationale strings that interpolate numbers through
    toFixed (MatchCandidate.reasons, DetectedOpportunity.description, the
    numeric tail of SanityIssue.issue) are elided: number-to-decimal-string
    formatting is presentation, not algorithm, and no claim concerns it.
    SanityIssue.issue keeps its semantic content, the direction word.
-/
import Mathlib

namespace PMTrack

/-! ### Character classes (JS regex \w and \s, ASCII model) -/

/-- JS regex word character: [A-Za-z0-9_]. -/
def isWordChar (c : Char) : Bool := c.isAlpha || c.isDigit || c = '_'

/-- JS regex whitespace (the ASCII part of \s). -/
def isSpaceChar (c : Char) : Bool :=
  c = ' ' || c = '\t' || c = '\n' || c = '\r' || c = '\x0b' || c = '\x0c'

/-- ASCII model of String.prototype.toLowerCase applied per character. -/
def toLowerJS (c : Char) : Char := c.toLower

theorem length_dropWhile_le {α : Type} (p : α → Bool) (l : List α) :
    (l.dropWhile p).length ≤ l.length := by
  induction l with
  | nil => simp
  | cons a t ih =>
    by_cases h : p a
    · simp only [List.dropWhile_cons, h, if_true, List.length_cons]
      omega
    · simp [List.dropWhile_cons, h]

/-- One pass of the JS replace(/\s+/g, " "): every maximal nonempty run of
whitespace becomes a single space.  Structural recursion on a fuel bounded
by the length (so the kernel can evaluate it); fuel never runs out because
each step consumes at least one character. -/
def collapseWSF : ℕ → List Char → List Char
  | 0, _ => []
  | _ + 1, [] => []
  | n + 1, c :: rest =>
    if isSpaceChar c then ' ' :: collapseWSF n (rest.dropWhile isSpaceChar)
    else c :: collapseWSF n rest

def collapseWS (l : List Char) : List Char := collapseWSF l.length l

theorem collapseWSF_congr : ∀ (n m : ℕ) (l : List Char), l.length ≤ n → l.length ≤ m →
    collapseWSF n l = collapseWSF m l := by
  intro n
  induction n with
  | zero =>
    intro m l hn hm
    have : l = [] := List.length_eq_zero.mp (Nat.le_zero.mp hn)
    subst this
    cases m <;> rfl
  | succ n ih =>
    intro m l hn hm
    cases l with
    | nil => cases m <;> rfl
    | cons c rest =>
      cases m with
      | zero => simp at hm
      | succ m =>
        simp only [List.length_cons] at hn hm
        rw [collapseWSF, collapseWSF]
        have hdrop : (rest.dropWhile isSpaceChar).length ≤ rest.length :=
          length_dropWhile_le _ _
        by_cases hsp : isSpaceChar c = true
        · rw [if_pos hsp, if_pos hsp,
            ih m (rest.dropWhile isSpaceChar) (by omega) (by omega)]
        · rw [if_neg hsp, if_neg hsp, ih m rest (by omega) (by omega)]

theorem collapseWS_cons (c : Char) (rest : List Char) :
    collapseWS (c :: rest) =
      if isSpaceChar c then ' ' :: collapseWS (rest.dropWhile isSpaceChar)
      else c :: collapseWS rest := by
  unfold collapseWS
  rw [List.length_cons, collapseWSF]
  by_cases hsp : isSpaceChar c = true
  · rw [if_pos hsp, if_pos hsp,
      collapseWSF_congr rest.length (rest.dropWhile isSpaceChar).length _
        (length_dropWhile_le _ _) le_rfl]
  · rw [if_neg hsp, if_neg hsp]

/-- JS String.prototype.trim: strip leading and trailing whitespace. -/
def trimWS (l : List Char) : List Char :=
  ((l.dropWhile isSpaceChar).reverse.dropWhile isSpaceChar).reverse

/-- normalizeText of src/lib/matching.ts:
text.toLowerCase().replace(/[^\w\s]/g, " ").replace(/\s+/g, " ").trim() -/
def normalizeText (s : List Char) : List Char :=
  trimWS (collapseWS
    ((s.map toLowerJS).map (fun c => if isWordChar c || isSpaceChar c then c else ' ')))

/-- normalizeOutcomeName of the opportunities module:
name.toLowerCase().replace(/[^\w\s]/g, "").trim() — note: the replacement is
the empty string (deletion), and there is no whitespace-collapsing step. -/
def normalizeOutcomeName (s : List Char) : List Char :=
  trimWS ((s.map toLowerJS).filter (fun c => isWordChar c || isSpaceChar c))

/-! ### stringSimilarity (string-similarity-js)

The imported library lower-cases both strings, builds a count map of the
length-2 substrings of the first, consumes it with the length-2 substrings
of the second (each bigram of str2 scores a match while the remaining count
of that bigram from str1 is positive, decrementing it), and returns
match * 2 / (str1.length + str2.length - 2).

The count map with decrement is exactly a multiset being erased from. -/

/-- The length-2 substrings of a string, in order. -/
def bigrams (l : List Char) : List (Char × Char) := l.zip l.tail

/-- Consume the bigram count map of str1 (a multiset) with the bigram list of
str2, counting matches. -/
def matchCount : Multiset (Char × Char) → List (Char × Char) → ℕ
  | _, [] => 0
  | m, b :: rest => if b ∈ m then matchCount (m.erase b) rest + 1 else matchCount m rest

/-- stringSimilarity(str1, str2) with the default substringLength = 2 and
caseSensitive = false. -/
def stringSimilarity (s1 s2 : List Char) : ℚ :=
  if (s1.map toLowerJS).length < 2 ∨ (s2.map toLowerJS).length < 2 then 0
  else (2 * (matchCount (bigrams (s1.map toLowerJS) : Multiset (Char × Char)) (bigrams (s2.map toLowerJS)) : ℚ)) /
    (((s1.map toLowerJS).length : ℚ) + ((s2.map toLowerJS).length : ℚ) - 2)

theorem matchCount_eq_card_inter (l : List (Char × Char)) :
    ∀ m : Multiset (Char × Char), matchCount m l = Multiset.card (m ∩ (l : Multiset (Char × Char))) := by
  induction l with
  | nil => intro m; simp [matchCount]
  | cons b rest ih =>
    intro m
    have hco : ((b :: rest : List (Char × Char)) : Multiset (Char × Char)) = b ::ₘ (rest : Multiset (Char × Char)) := by
      simp
    by_cases h : b ∈ m
    · rw [matchCount, if_pos h, hco, Multiset.inter_comm,
        Multiset.cons_inter_of_pos _ h, Multiset.card_cons, Multiset.inter_comm, ih]
    · rw [matchCount, if_neg h, hco, Multiset.inter_comm,
        Multiset.cons_inter_of_neg _ h, Multiset.inter_comm, ih]

theorem matchCount_comm (l1 l2 : List (Char × Char)) :
    matchCount (l1 : Multiset (Char × Char)) l2 = matchCount (l2 : Multiset (Char × Char)) l1 := by
  rw [matchCount_eq_card_inter, matchCount_eq_card_inter, Multiset.inter_comm]

theorem matchCount_le_left (l1 l2 : List (Char × Char)) :
    matchCount (l1 : Multiset (Char × Char)) l2 ≤ l1.length := by
  rw [matchCount_eq_card_inter]
  exact le_trans
    (Multiset.card_le_card (Multiset.inter_le_left (l1 : Multiset (Char × Char)) _))
    (le_of_eq (Multiset.coe_card l1))

theorem matchCount_le_right (l1 l2 : List (Char × Char)) :
    matchCount (l1 : Multiset (Char × Char)) l2 ≤ l2.length := by
  rw [matchCount_eq_card_inter]
  exact le_trans
    (Multiset.card_le_card (Multiset.inter_le_right (l1 : Multiset (Char × Char)) _))
    (le_of_eq (Multiset.coe_card l2))

theorem bigrams_length (l : List Char) : (bigrams l).length = l.length - 1 := by
  simp [bigrams]

theorem stringSimilarity_comm (s1 s2 : List Char) :
    stringSimilarity s1 s2 = stringSimilarity s2 s1 := by
  by_cases h1 : s1.length < 2 <;> by_cases h2 : s2.length < 2
  · simp [stringSimilarity, h1, h2]
  · simp [stringSimilarity, h1, h2]
  · simp [stringSimilarity, h1, h2]
  · unfold stringSimilarity
    rw [if_neg (not_or.mpr ⟨by simpa using h1, by simpa using h2⟩),
      if_neg (not_or.mpr ⟨by simpa using h2, by simpa using h1⟩), matchCount_comm]
    ring

theorem stringSimilarity_nonneg (s1 s2 : List Char) : 0 ≤ stringSimilarity s1 s2 := by
  by_cases h : s1.length < 2 ∨ s2.length < 2
  · simp [stringSimilarity, h]
  · unfold stringSimilarity
    rw [if_neg (by simpa using h)]
    push_neg at h
    apply div_nonneg
    · positivity
    · have h1 := h.1
      have h2 := h.2
      simp only [List.length_map]
      have : (4 : ℚ) ≤ (s1.length : ℚ) + (s2.length : ℚ) := by
        have := Nat.add_le_add h1 h2
        exact_mod_cast this
      linarith

theorem stringSimilarity_le_one (s1 s2 : List Char) : stringSimilarity s1 s2 ≤ 1 := by
  by_cases h : s1.length < 2 ∨ s2.length < 2
  · simp [stringSimilarity, h]
  · unfold stringSimilarity
    rw [if_neg (by simpa using h)]
    push_neg at h
    obtain ⟨h1, h2⟩ := h
    have hmc1 : matchCount (bigrams (s1.map toLowerJS) : Multiset (Char × Char)) (bigrams (s2.map toLowerJS)) ≤ s1.length - 1 := by
      have := matchCount_le_left (bigrams (s1.map toLowerJS)) (bigrams (s2.map toLowerJS))
      rwa [bigrams_length, List.length_map] at this
    have hmc2 : matchCount (bigrams (s1.map toLowerJS) : Multiset (Char × Char)) (bigrams (s2.map toLowerJS)) ≤ s2.length - 1 := by
      have := matchCount_le_right (bigrams (s1.map toLowerJS)) (bigrams (s2.map toLowerJS))
      rwa [bigrams_length, List.length_map] at this
    set mc := matchCount (bigrams (s1.map toLowerJS) : Multiset (Char × Char)) (bigrams (s2.map toLowerJS)) with hmc
    simp only [List.length_map]
    have hnat : 2 * mc ≤ s1.length + s2.length - 2 := by omega
    have hden : (0 : ℚ) < (s1.length : ℚ) + (s2.length : ℚ) - 2 := by
      have : (4 : ℚ) ≤ (s1.length : ℚ) + (s2.length : ℚ) := by
        exact_mod_cast Nat.add_le_add h1 h2
      linarith
    rw [div_le_one hden]
    have hle : ((2 * mc : ℕ) : ℚ) ≤ ((s1.length + s2.length - 2 : ℕ) : ℚ) := by
      exact_mod_cast hnat
    have hcast : ((s1.length + s2.length - 2 : ℕ) : ℚ) = (s1.length : ℚ) + (s2.length : ℚ) - 2 := by
      have hab : 2 ≤ s1.length + s2.length := by omega
      push_cast [Nat.cast_sub hab]
      ring
    rw [hcast] at hle
    push_cast at hle
    linarith

/-! ### Entity extraction (extractEntities of src/lib/matching.ts)

Each regex of the pattern battery is embedded as a dedicated scanner over
the normalized (hence lower-case) title.  JS String.match with the g flag
returns the list of non-overlapping matches found scanning left to right,
advancing one position when no match starts at the current one.  For these
particular patterns the regex engine's backtracking never pays off
(shortening a greedy \d+, [\d,]+ or \s* run leaves the next required piece
starting on a digit, a comma or a space, which it never accepts), so each
scanner deterministically takes maximal runs.  The scanners carry a
boundary flag: atB is true exactly when the current position is the start
of the string or is preceded by a non-word character, which is equivalent
to the \b assertion in front of a pattern whose first character is a word
character; every alternative in the word-list patterns starts and ends
with a word character, so the trailing \b is the boundaryAfter test. -/

/-- The trailing \b test after a match ending in a word character: the next
character, if any, is not a word character. -/
def boundaryAfter : List Char → Bool
  | [] => true
  | d :: _ => !(isWordChar d)

/-- Scanner for /\b(20\d{2})\b/g (the years pattern of extractEntities).
All scanners below recurse structurally on a fuel bounded by the input
length; each step consumes at least one character, so the fuel never runs
out and the zero-fuel branch is unreachable from the wrappers. -/
def scanYearsF : ℕ → Bool → List Char → List (List Char)
  | 0, _, _ => []
  | n + 1, atB, c1 :: c2 :: c3 :: c4 :: rest =>
    if atB ∧ c1 = '2' ∧ c2 = '0' ∧ c3.isDigit ∧ c4.isDigit ∧ boundaryAfter rest then
      [c1, c2, c3, c4] :: scanYearsF n false rest
    else scanYearsF n (!(isWordChar c1)) (c2 :: c3 :: c4 :: rest)
  | n + 1, _, c :: rest => scanYearsF n (!(isWordChar c)) rest
  | _ + 1, _, [] => []

def scanYears (atB : Bool) (l : List Char) : List (List Char) := scanYearsF l.length atB l

/-- Scanner for /20\d{2}/g, the year pattern of calculateMatchScore's
date-bonus step — note: no word-boundary assertions there. -/
def scanYearsNBF : ℕ → List Char → List (List Char)
  | 0, _ => []
  | n + 1, c1 :: c2 :: c3 :: c4 :: rest =>
    if c1 = '2' ∧ c2 = '0' ∧ c3.isDigit ∧ c4.isDigit then
      [c1, c2, c3, c4] :: scanYearsNBF n rest
    else scanYearsNBF n (c2 :: c3 :: c4 :: rest)
  | _ + 1, _ => []

def scanYearsNB (l : List Char) : List (List Char) := scanYearsNBF l.length l

/-- Try one alternative w (a nonempty word) at the position whose first
character is c and whose remaining text is rest; on success return the text
after the match. -/
def tryWord (w : List Char) (c : Char) (rest : List Char) : Option (List Char) :=
  match w with
  | [] => none
  | a :: w2 =>
    if a = c ∧ w2.isPrefixOf rest ∧ boundaryAfter (rest.drop w2.length) then
      some (rest.drop w2.length)
    else none

/-- First alternative that matches, in the order of the regex alternation
(JS tries alternatives left to right at each position). -/
def tryAlts (alts : List (List Char)) (c : Char) (rest : List Char) :
    Option (List Char × List Char) :=
  match alts with
  | [] => none
  | w :: ws =>
    match tryWord w c rest with
    | some r => some (w, r)
    | none => tryAlts ws c rest

theorem tryWord_length {w : List Char} {c : Char} {rest r : List Char}
    (h : tryWord w c rest = some r) : r.length ≤ rest.length := by
  match w with
  | [] => simp [tryWord] at h
  | a :: w2 =>
    rw [tryWord] at h
    split at h
    · cases h
      simp
    · cases h

theorem tryAlts_length {alts : List (List Char)} {c : Char} {rest : List Char}
    {w r : List Char} (h : tryAlts alts c rest = some (w, r)) : r.length ≤ rest.length := by
  induction alts with
  | nil => simp [tryAlts] at h
  | cons v vs ih =>
    rw [tryAlts] at h
    cases hv : tryWord v c rest with
    | some r2 =>
      rw [hv] at h
      cases h
      exact tryWord_length hv
    | none =>
      rw [hv] at h
      exact ih h

/-- Scanner for /\b(alt1|alt2|...)\b/g where every alternative starts and
ends with a word character (the quarters, months and keyTerms patterns). -/
def scanWordsF : ℕ → List (List Char) → Bool → List Char → List (List Char)
  | 0, _, _, _ => []
  | _ + 1, _, _, [] => []
  | n + 1, alts, atB, c :: rest =>
    if atB then
      match tryAlts alts c rest with
      | some (w, r) => w :: scanWordsF n alts false r
      | none => scanWordsF n alts (!(isWordChar c)) rest
    else scanWordsF n alts (!(isWordChar c)) rest

def scanWords (alts : List (List Char)) (atB : Bool) (l : List Char) : List (List Char) :=
  scanWordsF l.length alts atB l

/-- The character class [\d,] of the currency-amount alternative. -/
def isMoneyChar (c : Char) : Bool := c.isDigit || c = ','

/-- First matching unit word of \d+\s*(trillion|billion|million|thousand|k|m|b|t)\b,
tried in alternation order, with the trailing \b test. -/
def tryUnitsFrom : List (List Char) → List Char → Option (List Char × List Char)
  | [], _ => none
  | w :: ws, l =>
    if w.isPrefixOf l ∧ boundaryAfter (l.drop w.length) then some (w, l.drop w.length)
    else tryUnitsFrom ws l

/-- The unit words of the amounts pattern, in alternation order. -/
def unitWords : List (List Char) :=
  (["trillion", "billion", "million", "thousand", "k", "m", "b", "t"].map (fun s => s.data))

def tryUnits (l : List Char) : Option (List Char × List Char) := tryUnitsFrom unitWords l

theorem tryUnitsFrom_length {ws : List (List Char)} {l w r : List Char}
    (h : tryUnitsFrom ws l = some (w, r)) : r.length ≤ l.length := by
  induction ws with
  | nil => simp [tryUnitsFrom] at h
  | cons v vs ih =>
    rw [tryUnitsFrom] at h
    split at h
    · cases h
      simp
    · exact ih h

theorem tryUnits_length {l w r : List Char} (h : tryUnits l = some (w, r)) :
    r.length ≤ l.length := tryUnitsFrom_length h

/-- Scanner for /\$[\d,]+[kmbt]?|\d+\s*(trillion|billion|million|thousand|k|m|b|t)\b/gi
(the amounts pattern).  The first alternative has no boundary assertions;
the second needs only the trailing \b after the unit word. -/
def scanAmountsF : ℕ → List Char → List (List Char)
  | 0, _ => []
  | _ + 1, [] => []
  | n + 1, c :: rest =>
    if c = '$' then
      if rest.takeWhile isMoneyChar = [] then scanAmountsF n rest
      else
        match rest.dropWhile isMoneyChar with
        | u :: rest2 =>
          if u = 'k' ∨ u = 'm' ∨ u = 'b' ∨ u = 't' then
            ('$' :: rest.takeWhile isMoneyChar ++ [u]) :: scanAmountsF n rest2
          else ('$' :: rest.takeWhile isMoneyChar) :: scanAmountsF n (u :: rest2)
        | [] => ('$' :: rest.takeWhile isMoneyChar) :: []
    else if c.isDigit then
      match tryUnits ((rest.dropWhile Char.isDigit).dropWhile isSpaceChar) with
      | some (u, rest3) =>
        (c :: (rest.takeWhile Char.isDigit ++
          (rest.dropWhile Char.isDigit).takeWhile isSpaceChar ++ u)) :: scanAmountsF n rest3
      | none => scanAmountsF n rest
    else scanAmountsF n rest

def scanAmounts (l : List Char) : List (List Char) := scanAmountsF l.length l

/-- Scanner for /\d+(\.\d+)?%/g (the percentages pattern). -/
def scanPercentsF : ℕ → List Char → List (List Char)
  | 0, _ => []
  | _ + 1, [] => []
  | n + 1, c :: rest =>
    if c.isDigit then
      match rest.dropWhile Char.isDigit with
      | '%' :: rest2 => (c :: rest.takeWhile Char.isDigit ++ ['%']) :: scanPercentsF n rest2
      | '.' :: rest2 =>
        if rest2.takeWhile Char.isDigit ≠ [] ∧ (rest2.dropWhile Char.isDigit).head? = some '%' then
          (c :: rest.takeWhile Char.isDigit ++ '.' :: rest2.takeWhile Char.isDigit ++ ['%']) ::
            scanPercentsF n (rest2.dropWhile Char.isDigit).tail
        else scanPercentsF n rest
      | _ => scanPercentsF n rest
    else scanPercentsF n rest

def scanPercents (l : List Char) : List (List Char) := scanPercentsF l.length l

/-- The quarter labels of the quarters pattern. -/
def quarterWords : List (List Char) := (["q1", "q2", "q3", "q4"].map (fun s => s.data))

/-- The month names of the months pattern, in alternation order. -/
def monthWords : List (List Char) :=
  ((["january", "february", "march", "april", "may", "june", "july", "august",
    "september", "october", "november", "december", "jan", "feb", "mar", "apr",
    "jun", "jul", "aug", "sep", "oct", "nov", "dec"]).map (fun s => s.data))

/-- The curated key-term vocabulary, in alternation order. -/
def keyTermWords : List (List Char) :=
  ((["bitcoin", "btc", "ethereum", "eth", "fed", "federal reserve", "trump",
    "biden", "gop", "democrat", "republican", "spacex", "tesla", "apple",
    "microsoft", "nvidia", "google", "amazon", "ai", "openai", "chatgpt",
    "newsom", "vance", "dolphins", "bayern", "madrid"]).map (fun s => s.data))

/-- JS [...new Set(xs)]: deduplicate keeping first occurrences, preserving
order. -/
def dedupFirstF : ℕ → List (List Char) → List (List Char)
  | 0, _ => []
  | _ + 1, [] => []
  | n + 1, a :: l => a :: dedupFirstF n (l.filter (fun x => x ≠ a))

def dedupFirst (l : List (List Char)) : List (List Char) := dedupFirstF l.length l

/-- extractEntities of src/lib/matching.ts: run the pattern battery over the
normalized title, lower-case every match, deduplicate. -/
def extractEntities (title : List Char) : List (List Char) :=
  dedupFirst (((scanYears true (normalizeText title))
    ++ (scanWords quarterWords true (normalizeText title))
    ++ (scanWords monthWords true (normalizeText title))
    ++ (scanAmounts (normalizeText title))
    ++ (scanPercents (normalizeText title))
    ++ (scanWords keyTermWords true (normalizeText title))).map (fun m => m.map toLowerJS))

theorem dedupFirstF_mem_aux (n : ℕ) : ∀ l : List (List Char), l.length ≤ n →
    (dedupFirstF n l).Nodup ∧ ∀ x, (x ∈ dedupFirstF n l ↔ x ∈ l) := by
  induction n with
  | zero =>
    intro l hl
    have hnil : l = [] := List.length_eq_zero.mp (Nat.le_zero.mp hl)
    subst hnil
    simp [dedupFirstF]
  | succ n ih =>
    intro l hl
    cases l with
    | nil => simp [dedupFirstF]
    | cons a t =>
      rw [dedupFirstF]
      have hft : (t.filter (fun x => x ≠ a)).length ≤ n := by
        have h1 := List.length_filter_le (fun x : List Char => decide (x ≠ a)) t
        simp only [List.length_cons] at hl
        omega
      obtain ⟨hnd, hmem⟩ := ih _ hft
      constructor
      · refine List.nodup_cons.mpr ⟨?_, hnd⟩
        intro hmem2
        have := (hmem a).mp hmem2
        simp at this
      · intro x
        constructor
        · intro hx
          rcases List.mem_cons.mp hx with h | h
          · exact h ▸ List.mem_cons_self _ _
          · exact List.mem_cons_of_mem _ (List.mem_filter.mp ((hmem x).mp h)).1
        · intro hx
          rcases List.mem_cons.mp hx with h | h
          · exact h ▸ List.mem_cons_self _ _
          · by_cases hxa : x = a
            · exact hxa ▸ List.mem_cons_self _ _
            · exact List.mem_cons_of_mem _
                ((hmem x).mpr (List.mem_filter.mpr ⟨h, by simpa using hxa⟩))

theorem mem_dedupFirst (l : List (List Char)) (x : List Char) :
    x ∈ dedupFirst l ↔ x ∈ l :=
  (dedupFirstF_mem_aux l.length l le_rfl).2 x

theorem nodup_dedupFirst (l : List (List Char)) : (dedupFirst l).Nodup :=
  (dedupFirstF_mem_aux l.length l le_rfl).1

theorem nodup_extractEntities (title : List Char) : (extractEntities title).Nodup :=
  nodup_dedupFirst _

/-! ### Data model

One Market structure serves both TypeScript MarketWithOutcomes interfaces:
matching.ts uses id, venueId and title; the opportunities module
additionally uses venue.name (flattened here to venueName), outcomes,
liquidity and url.  MatchCandidate.reasons (rationale strings) is elided,
see the header. -/

structure Outcome where
  name : List Char
  price : ℚ
deriving DecidableEq, Repr

structure Market where
  id : String
  venueId : String
  venueName : String
  title : List Char
  url : Option String
  liquidity : Option ℚ
  volume : Option ℚ
  outcomes : List Outcome
deriving DecidableEq, Repr

structure MatchCandidate where
  market1 : Market
  market2 : Market
  score : ℚ
deriving DecidableEq, Repr

/-! ### calculateMatchScore (src/lib/matching.ts)

The source accumulates score incrementally between its four gates; here the
contributions are named (titleSim, entityPoints, yearPoints) and the
accumulated total is their sum, which is exactly the value the source holds
at the final gate. -/

def normTitle (m : Market) : List Char := normalizeText m.title

/-- titleSimilarity = stringSimilarity(title1, title2) on normalized titles. -/
def titleSim (m1 m2 : Market) : ℚ := stringSimilarity (normTitle m1) (normTitle m2)

/-- commonEntities = entities1.filter(e => entities2.includes(e)). -/
def commonEnts (m1 m2 : Market) : List (List Char) :=
  (extractEntities m1.title).filter (fun e => e ∈ extractEntities m2.title)

/-- Entity-overlap contribution: min(count × 10, 30) when non-empty. -/
def entityPoints (m1 m2 : Market) : ℚ :=
  if commonEnts m1 m2 ≠ [] then min (((commonEnts m1 m2).length : ℚ) * 10) 30 else 0

/-- commonYears = (title1.match(/20\d{2}/g) ?? []).filter(y => years2.includes(y)). -/
def commonYears (m1 m2 : Market) : List (List Char) :=
  (scanYearsNB (normTitle m1)).filter (fun y => y ∈ scanYearsNB (normTitle m2))

/-- Shared-year bonus: a flat 10 when commonYears is non-empty. -/
def yearPoints (m1 m2 : Market) : ℚ := if commonYears m1 m2 ≠ [] then 10 else 0

/-- The accumulated total score at the final gate. -/
def matchTotalScore (m1 m2 : Market) : ℚ :=
  titleSim m1 m2 * 50 + entityPoints m1 m2 + yearPoints m1 m2

/-- calculateMatchScore: the four gates (same venue; similarity < 0.5; both
entity sets non-empty with empty intersection; total < 55) in source order. -/
def calculateMatchScore (m1 m2 : Market) : Option MatchCandidate :=
  if m1.venueId = m2.venueId then none
  else if titleSim m1 m2 < 1/2 then none
  else if extractEntities m1.title ≠ [] ∧ extractEntities m2.title ≠ [] ∧ commonEnts m1 m2 = [] then
    none
  else if matchTotalScore m1 m2 < 55 then none
  else some ⟨m1, m2, matchTotalScore m1 m2⟩

/-- The O(n²) pairwise scan of findAllMatches: for i < j in list order. -/
def collectMatches : List Market → List MatchCandidate
  | [] => []
  | m :: rest => rest.filterMap (fun m2 => calculateMatchScore m m2) ++ collectMatches rest

/-- findAllMatches: scan all pairs, then sort by score descending
(matches.sort((a, b) => b.score - a.score); JS sort is stable). -/
def findAllMatches (markets : List Market) : List MatchCandidate :=
  (collectMatches markets).mergeSort (fun a b => b.score ≤ a.score)

/-- JS Map.set: replace in place when the key exists, append otherwise. -/
def mapSet : List (String × List Market) → String → List Market → List (String × List Market)
  | [], k, v => [(k, v)]
  | (k2, v2) :: rest, k, v =>
    if k2 = k then (k, v) :: rest else (k2, v2) :: mapSet rest k v

/-- The greedy walk of groupMatches: state is (groups map, usedMarkets set). -/
def groupMatchesAux :
    List MatchCandidate → List (String × List Market) → List String →
      (List (String × List Market) × List String)
  | [], groups, used => (groups, used)
  | c :: cs, groups, used =>
    if c.market1.id ∈ used ∨ c.market2.id ∈ used then groupMatchesAux cs groups used
    else groupMatchesAux cs
      (mapSet groups (c.market1.id ++ "-" ++ c.market2.id) [c.market1, c.market2])
      (c.market1.id :: c.market2.id :: used)

/-- groupMatches(markets, matches, minScore = 55).  The markets argument is
unused by the source as well; the matches parameter is renamed cands because
matches is a reserved word here. -/
def groupMatches (markets : List Market) (cands : List MatchCandidate)
    (minScore : ℚ := 55) : List (String × List Market) :=
  (groupMatchesAux (cands.filter (fun m => minScore ≤ m.score)) [] []).1

/-! ### Opportunity detection module -/

inductive OppType where
  | cross_venue_divergence
  | internal_sanity
  | arbitrage
deriving DecidableEq, Repr

inductive ArbType where
  | guaranteed_profit
  | near_arbitrage
deriving DecidableEq, Repr

structure PriceEntry where
  venueId : String
  venueName : String
  price : ℚ
  marketUrl : Option String
deriving DecidableEq, Repr

structure OutcomeComparison where
  outcomeName : List Char
  prices : List PriceEntry
  spread : ℚ
  spreadPercent : ℚ
deriving DecidableEq, Repr

structure SanityIssue where
  marketId : String
  venueId : String
  venueName : String
  /-- The direction word of the issue message ("exceeds" or "below"); the
  surrounding text and the toFixed-formatted percentage are elided. -/
  issue : String
  outcomeSum : ℚ
deriving DecidableEq, Repr

structure ArbitrageInfo where
  type : ArbType
  buyVenue : String
  sellVenue : String
  profit : ℚ
  profitPercent : ℚ
deriving DecidableEq, Repr

/-- OpportunityDetails with its three optional variant payloads. -/
structure OpportunityDetails where
  type : OppType
  outcomeComparisons : Option (List OutcomeComparison)
  sanityIssues : Option (List SanityIssue)
  arbitrageInfo : Option ArbitrageInfo
deriving DecidableEq, Repr

/-- DetectedOpportunity; description (a formatted string) is elided, and the
score is ℝ because the divergence severity uses Math.log10. -/
structure DetectedOpportunity where
  groupId : String
  type : OppType
  score : ℝ
  spread : ℚ
  details : OpportunityDetails
  avgLiquidity : ℚ

structure MarketGroup where
  id : String
  markets : List Market
deriving DecidableEq, Repr

/-! ### matchOutcomes (the outcome aligner) -/

/-- Insert one price entry into the outcome map under its normalized-name
key: push onto the existing bucket, or append a fresh bucket whose
outcomeName is the original (non-normalized) name of its first outcome. -/
def pushPrice (key origName : List Char) (pe : PriceEntry) :
    List (List Char × OutcomeComparison) → List (List Char × OutcomeComparison)
  | [] => [(key, ⟨origName, [pe], 0, 0⟩)]
  | (k, comp) :: rest =>
    if k = key then (k, { comp with prices := comp.prices ++ [pe] }) :: rest
    else (k, comp) :: pushPrice key origName pe rest

/-- The bucketing double loop of matchOutcomes.  market.url || undefined is
modelled as the url option itself. -/
def collectOutcomes (markets : List Market) : List (List Char × OutcomeComparison) :=
  markets.foldl (fun acc m =>
    m.outcomes.foldl (fun acc2 o =>
      pushPrice (normalizeOutcomeName o.name) o.name ⟨m.venueId, m.venueName, o.price, m.url⟩ acc2)
      acc) []

def priceList (c : OutcomeComparison) : List ℚ := c.prices.map (fun p => p.price)

/-- Math.max over a non-empty list (the only way the source uses it). -/
def maxList : List ℚ → ℚ
  | [] => 0
  | a :: rest => rest.foldl max a

/-- Math.min over a non-empty list (the only way the source uses it). -/
def minList : List ℚ → ℚ
  | [] => 0
  | a :: rest => rest.foldl min a

/-- The spread pass of matchOutcomes over every bucket with > 1 prices. -/
def matchOutcomes (markets : List Market) : List (List Char × OutcomeComparison) :=
  (collectOutcomes markets).map (fun e =>
    if 1 < e.2.prices.length then
      (e.1, { e.2 with
        spread := maxList (priceList e.2) - minList (priceList e.2)
        spreadPercent :=
          if 0 < minList (priceList e.2) then
            (maxList (priceList e.2) - minList (priceList e.2)) / minList (priceList e.2) * 100
          else 0 })
    else e)

/-! ### The three detectors and decay -/

/-- (m.liquidity || 0) summed, divided by the group size. -/
def avgLiquidity (markets : List Market) : ℚ :=
  (markets.foldl (fun s m => s + m.liquidity.getD 0) 0) / (markets.length : ℚ)

/-- The significant-divergence filter: ≥ 2 contributors and spread ≥ 0.03. -/
def significantOf (markets : List Market) : List OutcomeComparison :=
  ((matchOutcomes markets).map (fun e => e.2)).filter
    (fun c => 2 ≤ c.prices.length ∧ 3/100 ≤ c.spread)

/-- The running maxSpread of the divergence detector (starts at 0). -/
def maxSpreadOf (cs : List OutcomeComparison) : ℚ :=
  (cs.map (fun c => c.spread)).foldl max 0

/-- new Set(markets.map(m => m.venueId)).size. -/
def venueCount (markets : List Market) : ℕ :=
  ((markets.map (fun m => m.venueId)).dedup).length

noncomputable def detectCrossVenueDivergence (g : MarketGroup) : Option DetectedOpportunity :=
  if g.markets.length < 2 then none
  else if significantOf g.markets = [] then none
  else
    some {
      groupId := g.id
      type := OppType.cross_venue_divergence
      score := ((min (maxSpreadOf (significantOf g.markets) * 100) 30 : ℚ) : ℝ)
        + min (Real.logb 10 ((avgLiquidity g.markets : ℝ) + 1) * 5) 30
        + ((min (((venueCount g.markets : ℚ) - 1) * 10) 20 : ℚ) : ℝ)
      spread := maxSpreadOf (significantOf g.markets)
      details := ⟨OppType.cross_venue_divergence, some (significantOf g.markets), none, none⟩
      avgLiquidity := avgLiquidity g.markets }

/-- The per-market outcome-price sum: outcomes.reduce((sum, o) => sum + o.price, 0). -/
def outcomeSum (m : Market) : ℚ := m.outcomes.foldl (fun s o => s + o.price) 0

/-- The per-market sanity flag of detectInternalSanity. -/
def sanityIssueOf (m : Market) : Option SanityIssue :=
  if 3/100 < |outcomeSum m - 1| then
    some ⟨m.id, m.venueId, m.venueName,
      (if 1 < outcomeSum m then "exceeds" else "below"), outcomeSum m⟩
  else none

/-- Math.max over the (non-empty, non-negative) deviations of the issues. -/
def maxDeviation (issues : List SanityIssue) : ℚ :=
  (issues.map (fun i => |i.outcomeSum - 1|)).foldl max 0

noncomputable def detectInternalSanity (g : MarketGroup) : Option DetectedOpportunity :=
  if g.markets.filterMap sanityIssueOf = [] then none
  else
    some {
      groupId := g.id
      type := OppType.internal_sanity
      score := ((min (maxDeviation (g.markets.filterMap sanityIssueOf) * 100) 40
        + min (((g.markets.filterMap sanityIssueOf).length : ℚ) * 10) 30 : ℚ) : ℝ)
      spread := maxDeviation (g.markets.filterMap sanityIssueOf)
      details := ⟨OppType.internal_sanity, none, some (g.markets.filterMap sanityIssueOf), none⟩
      avgLiquidity := avgLiquidity g.markets }

def pairCost (p : PriceEntry × PriceEntry) : ℚ := p.1.price + p.2.price

def pairProfit (p : PriceEntry × PriceEntry) : ℚ := 1 - pairCost p

def mkBuyVenue (p : PriceEntry × PriceEntry) : String :=
  "Buy Yes @ " ++ p.1.venueName ++ ", Buy No @ " ++ p.2.venueName

/-- The cross-venue (yes, no) price pairs in the nested-loop order of
detectArbitrage (continue on equal venueId = filter). -/
def crossPairs (yc nc : OutcomeComparison) : List (PriceEntry × PriceEntry) :=
  ((yc.prices.map (fun y => nc.prices.map (fun n => (y, n)))).flatten).filter
    (fun p => p.1.venueId ≠ p.2.venueId)

/-- One step of the bestArbitrage accumulation, mirroring the two branches
of the loop body. -/
def classifyStep (best : Option ArbitrageInfo) (p : PriceEntry × PriceEntry) :
    Option ArbitrageInfo :=
  if 0 < pairProfit p then
    match best with
    | none => some ⟨ArbType.guaranteed_profit, mkBuyVenue p, "", pairProfit p,
        pairProfit p / pairCost p * 100⟩
    | some b =>
      if b.profit < pairProfit p then
        some ⟨ArbType.guaranteed_profit, mkBuyVenue p, "", pairProfit p,
          pairProfit p / pairCost p * 100⟩
      else some b
  else if -(1/50) < pairProfit p then
    match best with
    | none => some ⟨ArbType.near_arbitrage, mkBuyVenue p, "", pairProfit p,
        pairProfit p / pairCost p * 100⟩
    | some b =>
      if b.type ≠ ArbType.guaranteed_profit ∧ b.profit < pairProfit p then
        some ⟨ArbType.near_arbitrage, mkBuyVenue p, "", pairProfit p,
          pairProfit p / pairCost p * 100⟩
      else some b
  else best

def bestArbitrage (pairs : List (PriceEntry × PriceEntry)) : Option ArbitrageInfo :=
  pairs.foldl classifyStep none

/-- The DetectedOpportunity that detectArbitrage builds from the kept
candidate. -/
noncomputable def arbOppOf (g : MarketGroup) (b : ArbitrageInfo) : DetectedOpportunity :=
  { groupId := g.id
    type := OppType.arbitrage
    score :=
      if b.type = ArbType.guaranteed_profit then ((80 + b.profitPercent * 2 : ℚ) : ℝ)
      else ((40 + max 0 (b.profitPercent + 2) * 10 : ℚ) : ℝ)
    spread := |b.profit|
    details := ⟨OppType.arbitrage, none, none, some b⟩
    avgLiquidity := avgLiquidity g.markets }

noncomputable def detectArbitrage (g : MarketGroup) : Option DetectedOpportunity :=
  if g.markets.length < 2 then none
  else
    match (matchOutcomes g.markets).lookup ("yes").data,
        (matchOutcomes g.markets).lookup ("no").data with
    | some yc, some nc =>
      if yc.prices.length < 2 ∨ nc.prices.length < 2 then none
      else
        match bestArbitrage (crossPairs yc nc) with
        | none => none
        | some b => some (arbOppOf g b)
    | _, _ => none

noncomputable def detectOpportunities (g : MarketGroup) : List DetectedOpportunity :=
  (detectCrossVenueDivergence g).toList
    ++ (detectInternalSanity g).toList
    ++ (detectArbitrage g).toList

/-- applyFreshnessDecay; the source reads now with new Date() inside, which
is passed explicitly here, and timestamps are epoch milliseconds. -/
noncomputable def applyFreshnessDecay (score lastUpdated now : ℝ) : ℝ :=
  score * ((1/2 : ℝ) ^ ((now - lastUpdated) / (1000 * 60) / 60))

/-! ### C9: freshness decay -/

/-- C9: applyFreshnessDecay multiplies the score by 0.5^(ageMinutes / 60):
at age 0 the multiplier is 1.0 so applyFreshnessDecay(S, t, t) = S for any
S; for a fixed non-negative score the result is monotonically non-increasing
in age; and for any non-negative age the result is well-defined, never
negative, and never diverges (it stays within [0, S]). -/
theorem applyFreshnessDecay_spec (S t n1 n2 : ℝ) (hS : 0 ≤ S) (h1 : t ≤ n1) (h12 : n1 ≤ n2) :
    applyFreshnessDecay S t t = S
    ∧ applyFreshnessDecay S t n2 ≤ applyFreshnessDecay S t n1
    ∧ 0 ≤ applyFreshnessDecay S t n1
    ∧ applyFreshnessDecay S t n1 ≤ S := by
  have hhalf0 : (0 : ℝ) < 1/2 := by norm_num
  have hhalf1 : (1/2 : ℝ) ≤ 1 := by norm_num
  refine ⟨?_, ?_, ?_, ?_⟩
  · unfold applyFreshnessDecay
    rw [sub_self, zero_div, zero_div, Real.rpow_zero, mul_one]
  · unfold applyFreshnessDecay
    refine mul_le_mul_of_nonneg_left ?_ hS
    refine Real.rpow_le_rpow_of_exponent_ge hhalf0 hhalf1 ?_
    have hsub : n1 - t ≤ n2 - t := by linarith
    gcongr
  · exact mul_nonneg hS (Real.rpow_nonneg (by norm_num) _)
  · unfold applyFreshnessDecay
    refine mul_le_of_le_one_right hS ?_
    refine Real.rpow_le_one (by norm_num) hhalf1 ?_
    have : (0 : ℝ) ≤ n1 - t := by linarith
    positivity

/-- Witness for C9 at S = 1, t = 0, ages 60 and 120 minutes (in ms). -/
theorem applyFreshnessDecay_spec_witness :
    (0 : ℝ) ≤ 1 ∧ (0 : ℝ) ≤ 3600000 ∧ (3600000 : ℝ) ≤ 7200000
    ∧ (applyFreshnessDecay 1 0 0 = 1
      ∧ applyFreshnessDecay 1 0 7200000 ≤ applyFreshnessDecay 1 0 3600000
      ∧ 0 ≤ applyFreshnessDecay 1 0 3600000
      ∧ applyFreshnessDecay 1 0 3600000 ≤ 1) :=
  ⟨by norm_num, by norm_num, by norm_num,
    applyFreshnessDecay_spec 1 0 3600000 7200000 (by norm_num) (by norm_num) (by norm_num)⟩

/-! ### C7: the outcome-name normalizer is not the title normalizer -/

/-- Counterexample for C7 as stated: on "a-b" the outcome-name normalizer
deletes the dash ("ab") while the title normalizer replaces it with a space
("a b"). -/
theorem normalizeOutcomeName_ne_normalizeText :
    normalizeOutcomeName (("a-b").data) ≠ normalizeText (("a-b").data) := by decide

theorem word_not_space (c : Char) (h : isWordChar c = true) : isSpaceChar c = false := by
  cases hs : isSpaceChar c
  · rfl
  · exfalso
    unfold isSpaceChar at hs
    simp only [Bool.or_eq_true, decide_eq_true_eq] at hs
    rcases hs with ((((h1 | h1) | h1) | h1) | h1) | h1 <;> subst h1 <;> exact absurd h (by decide)

/-- No two adjacent spaces (the condition under which whitespace collapsing
is the identity). -/
def noDoubleSpace : List Char → Bool
  | a :: b :: rest => !(a == ' ' && b == ' ') && noDoubleSpace (b :: rest)
  | _ => true

theorem noDoubleSpace_tail (c : Char) (rest : List Char)
    (h : noDoubleSpace (c :: rest) = true) : noDoubleSpace rest = true := by
  cases rest with
  | nil => rfl
  | cons d r2 =>
    rw [noDoubleSpace, Bool.and_eq_true] at h
    exact h.2

theorem collapseWS_eq_self (t : List Char)
    (hchar : ∀ c ∈ t, isWordChar c = true ∨ c = ' ')
    (hrun : noDoubleSpace t = true) :
    collapseWS t = t := by
  induction t with
  | nil => rfl
  | cons c rest ih =>
    have hc := hchar c (List.mem_cons_self _ _)
    have hchar2 : ∀ d ∈ rest, isWordChar d = true ∨ d = ' ' :=
      fun d hd => hchar d (List.mem_cons_of_mem _ hd)
    have hrun2 : noDoubleSpace rest = true := noDoubleSpace_tail c rest hrun
    rw [collapseWS_cons]
    by_cases hsp : isSpaceChar c = true
    · have hceq : c = ' ' := by
        rcases hc with hw | hw
        · exact absurd hsp (by simp [word_not_space c hw])
        · exact hw
      have hdrop : rest.dropWhile isSpaceChar = rest := by
        cases rest with
        | nil => rfl
        | cons d rest2 =>
          have hd := hchar2 d (List.mem_cons_self _ _)
          have hdne : d ≠ ' ' := by
            intro hdeq
            rw [noDoubleSpace, Bool.and_eq_true] at hrun
            have := hrun.1
            rw [hceq, hdeq] at this
            simp at this
          have hdnsp : isSpaceChar d = false := by
            rcases hd with hw | hw
            · exact word_not_space d hw
            · exact absurd hw hdne
          rw [List.dropWhile_cons, hdnsp]
          simp
      rw [if_pos hsp, hdrop, ih hchar2 hrun2, hceq]
    · rw [if_neg hsp, ih hchar2 hrun2]

/-- C7 amended: normalizeOutcomeName is not the same function as
normalizeText (see the counterexample); the two agree exactly on the strings
whose lower-cased form consists of word characters and spaces only, with no
two adjacent spaces — on such strings deletion of punctuation and
replacement by a space coincide (there is nothing to delete) and whitespace
collapsing is the identity. -/
theorem normalizeOutcomeName_eq_normalizeText_of_plain (s : List Char)
    (hchar : ∀ c ∈ s.map toLowerJS, isWordChar c = true ∨ c = ' ')
    (hrun : noDoubleSpace (s.map toLowerJS) = true) :
    normalizeOutcomeName s = normalizeText s := by
  unfold normalizeOutcomeName normalizeText
  have hfilter : (s.map toLowerJS).filter (fun c => isWordChar c || isSpaceChar c)
      = s.map toLowerJS := by
    apply List.filter_eq_self.mpr
    intro c hc
    rcases hchar c hc with hw | hw
    · simp [hw]
    · subst hw
      simp [isSpaceChar]
  have hrepl : (s.map toLowerJS).map (fun c => if isWordChar c || isSpaceChar c then c else ' ')
      = s.map toLowerJS := by
    have hfix : ∀ c ∈ s.map toLowerJS,
        (fun c => if isWordChar c || isSpaceChar c then c else ' ') c = id c := by
      intro c hc
      rcases hchar c hc with hw | hw
      · simp [hw]
      · subst hw
        simp [isSpaceChar]
    rw [List.map_congr_left hfix, List.map_id]
  rw [hfilter, hrepl, collapseWS_eq_self (s.map toLowerJS) hchar hrun]

/-! ### C5 and C10: the internal-sanity detector -/

def sanityMktHigh : Market :=
  ⟨"m1", "v1", "V1", [], none, none, none,
    [⟨("a").data, 35/100⟩, ⟨("b").data, 28/100⟩, ⟨("c").data, 42/100⟩]⟩

def sanityGroupHigh : MarketGroup := ⟨"g1", [sanityMktHigh]⟩

def sanityMkt98 : Market :=
  ⟨"m2", "v1", "V1", [], none, none, none, [⟨("a").data, 1/2⟩, ⟨("b").data, 48/100⟩]⟩

def sanityGroup98 : MarketGroup := ⟨"g2", [sanityMkt98]⟩

def sanityMktBelow : Market :=
  ⟨"m4", "v1", "V1", [], none, none, none, [⟨("a").data, 1/2⟩, ⟨("b").data, 46/100⟩]⟩

def sanityGroupBelow : MarketGroup := ⟨"g4", [sanityMktBelow]⟩

def sanityMktOk : Market :=
  ⟨"m3", "v1", "V1", [], none, none, none, [⟨("a").data, 1/2⟩, ⟨("b").data, 52/100⟩]⟩

def sanityGroupOk : MarketGroup := ⟨"g3", [sanityMktOk]⟩

/-- C5 counterexample: the claim asserts that a market with outcomes summing
to 0.98 is flagged "below", but |0.98 − 1| = 0.02 is within the 0.03
tolerance, so the detector does not flag it at all. -/
theorem detectInternalSanity_098_counterexample :
    outcomeSum sanityMkt98 = 98/100 ∧ detectInternalSanity sanityGroup98 = none := by
  have hsum : outcomeSum sanityMkt98 = 49/50 := by
    norm_num [outcomeSum, sanityMkt98]
  have habs : |outcomeSum sanityMkt98 - 1| = 1/50 := by
    rw [hsum, show (49 : ℚ)/50 - 1 = -(1/50) by norm_num, abs_neg]
    exact abs_of_nonneg (by norm_num)
  have hiss : sanityIssueOf sanityMkt98 = none := by
    rw [sanityIssueOf, habs, if_neg (show ¬ (3 : ℚ)/100 < 1/50 by norm_num)]
  have hsan : sanityGroup98.markets.filterMap sanityIssueOf = [] := by
    show List.filterMap sanityIssueOf [sanityMkt98] = _
    simp only [List.filterMap_cons, List.filterMap_nil, hiss]
  refine ⟨by rw [hsum]; norm_num, ?_⟩
  rw [detectInternalSanity, if_pos hsan]

/-- C5 amended: detectInternalSanity flags a market exactly when
|sum − 1| > 0.03, with direction "exceeds" when the sum is above 1 and
"below" otherwise; in particular outcomes 0.35, 0.28, 0.42 (sum 1.05) are
flagged "exceeds" with outcomeSum 1.05, a market summing to 0.96 is flagged
"below" (0.98, the original example, falls within tolerance and is not
flagged — see the counterexample), and a market summing to 1.02 is not
flagged. -/
theorem detectInternalSanity_spec :
    (∀ g : MarketGroup,
      (detectInternalSanity g = none ↔ ∀ m ∈ g.markets, |outcomeSum m - 1| ≤ 3/100)
      ∧ (∀ opp, detectInternalSanity g = some opp → ∃ issues,
          opp.details.sanityIssues = some issues
          ∧ (∀ m ∈ g.markets, 3/100 < |outcomeSum m - 1| → ∃ i ∈ issues,
              i.marketId = m.id ∧ i.outcomeSum = outcomeSum m
              ∧ i.issue = (if 1 < outcomeSum m then "exceeds" else "below"))
          ∧ (∀ i ∈ issues, 3/100 < |i.outcomeSum - 1|
              ∧ i.issue = (if 1 < i.outcomeSum then "exceeds" else "below"))))
    ∧ (∃ opp, detectInternalSanity sanityGroupHigh = some opp
        ∧ opp.details.sanityIssues = some [⟨"m1", "v1", "V1", "exceeds", 21/20⟩])
    ∧ (∃ opp, detectInternalSanity sanityGroupBelow = some opp
        ∧ opp.details.sanityIssues = some [⟨"m4", "v1", "V1", "below", 24/25⟩])
    ∧ detectInternalSanity sanityGroupOk = none := by
  have hgen : ∀ g : MarketGroup,
      (detectInternalSanity g = none ↔ ∀ m ∈ g.markets, |outcomeSum m - 1| ≤ 3/100)
      ∧ (∀ opp, detectInternalSanity g = some opp → ∃ issues,
          opp.details.sanityIssues = some issues
          ∧ (∀ m ∈ g.markets, 3/100 < |outcomeSum m - 1| → ∃ i ∈ issues,
              i.marketId = m.id ∧ i.outcomeSum = outcomeSum m
              ∧ i.issue = (if 1 < outcomeSum m then "exceeds" else "below"))
          ∧ (∀ i ∈ issues, 3/100 < |i.outcomeSum - 1|
              ∧ i.issue = (if 1 < i.outcomeSum then "exceeds" else "below"))) := by
    intro g
    constructor
    · constructor
      · intro h m hm
        by_cases hc : g.markets.filterMap sanityIssueOf = []
        · have := List.filterMap_eq_nil_iff.mp hc m hm
          rw [sanityIssueOf] at this
          by_contra hdev
          push_neg at hdev
          rw [if_pos hdev] at this
          exact absurd this (by simp)
        · rw [detectInternalSanity, if_neg hc] at h
          exact absurd h (by simp)
      · intro h
        have hc : g.markets.filterMap sanityIssueOf = [] := by
          apply List.filterMap_eq_nil_iff.mpr
          intro m hm
          rw [sanityIssueOf, if_neg (not_lt.mpr (h m hm))]
        rw [detectInternalSanity, if_pos hc]
    · intro opp hopp
      by_cases hc : g.markets.filterMap sanityIssueOf = []
      · rw [detectInternalSanity, if_pos hc] at hopp
        exact absurd hopp (by simp)
      · rw [detectInternalSanity, if_neg hc] at hopp
        have heq := Option.some.inj hopp
        refine ⟨g.markets.filterMap sanityIssueOf, ?_, ?_, ?_⟩
        · rw [← heq]
        · intro m hm hdev
          refine ⟨⟨m.id, m.venueId, m.venueName,
            (if 1 < outcomeSum m then "exceeds" else "below"), outcomeSum m⟩,
            ?_, rfl, rfl, rfl⟩
          exact List.mem_filterMap.mpr ⟨m, hm, by rw [sanityIssueOf, if_pos hdev]⟩
        · intro i hi
          obtain ⟨m, hm, hfm⟩ := List.mem_filterMap.mp hi
          rw [sanityIssueOf] at hfm
          by_cases hdev : 3/100 < |outcomeSum m - 1|
          · rw [if_pos hdev] at hfm
            have hieq := Option.some.inj hfm
            rw [← hieq]
            exact ⟨hdev, by simp⟩
          · rw [if_neg hdev] at hfm
            exact absurd hfm (by simp)
  refine ⟨hgen, ?_, ?_, ?_⟩
  · have hsum : outcomeSum sanityMktHigh = 21/20 := by
      norm_num [outcomeSum, sanityMktHigh]
    have habs : |outcomeSum sanityMktHigh - 1| = 1/20 := by
      rw [hsum, show (21 : ℚ)/20 - 1 = 1/20 by norm_num]
      exact abs_of_nonneg (by norm_num)
    have hiss : sanityIssueOf sanityMktHigh = some ⟨"m1", "v1", "V1", "exceeds", 21/20⟩ := by
      rw [sanityIssueOf, habs, if_pos (show (3 : ℚ)/100 < 1/20 by norm_num), hsum,
        if_pos (show (1 : ℚ) < 21/20 by norm_num)]
      rfl
    have hsan : sanityGroupHigh.markets.filterMap sanityIssueOf
        = [⟨"m1", "v1", "V1", "exceeds", 21/20⟩] := by
      show List.filterMap sanityIssueOf [sanityMktHigh] = _
      simp only [List.filterMap_cons, List.filterMap_nil, hiss]
    rw [detectInternalSanity, if_neg (by rw [hsan]; simp), hsan]
    exact ⟨_, rfl, rfl⟩
  · have hsum : outcomeSum sanityMktBelow = 24/25 := by
      norm_num [outcomeSum, sanityMktBelow]
    have habs : |outcomeSum sanityMktBelow - 1| = 1/25 := by
      rw [hsum, show (24 : ℚ)/25 - 1 = -(1/25) by norm_num, abs_neg]
      exact abs_of_nonneg (by norm_num)
    have hiss : sanityIssueOf sanityMktBelow = some ⟨"m4", "v1", "V1", "below", 24/25⟩ := by
      rw [sanityIssueOf, habs, if_pos (show (3 : ℚ)/100 < 1/25 by norm_num), hsum,
        if_neg (show ¬ (1 : ℚ) < 24/25 by norm_num)]
      rfl
    have hsan : sanityGroupBelow.markets.filterMap sanityIssueOf
        = [⟨"m4", "v1", "V1", "below", 24/25⟩] := by
      show List.filterMap sanityIssueOf [sanityMktBelow] = _
      simp only [List.filterMap_cons, List.filterMap_nil, hiss]
    rw [detectInternalSanity, if_neg (by rw [hsan]; simp), hsan]
    exact ⟨_, rfl, rfl⟩
  · have hsum : outcomeSum sanityMktOk = 51/50 := by
      norm_num [outcomeSum, sanityMktOk]
    have habs : |outcomeSum sanityMktOk - 1| = 1/50 := by
      rw [hsum, show (51 : ℚ)/50 - 1 = 1/50 by norm_num]
      exact abs_of_nonneg (by norm_num)
    have hiss : sanityIssueOf sanityMktOk = none := by
      rw [sanityIssueOf, habs, if_neg (show ¬ (3 : ℚ)/100 < 1/50 by norm_num)]
    have hsan : sanityGroupOk.markets.filterMap sanityIssueOf = [] := by
      show List.filterMap sanityIssueOf [sanityMktOk] = _
      simp only [List.filterMap_cons, List.filterMap_nil, hiss]
    rw [detectInternalSanity, if_pos hsan]

/-- Witness for C5 applying the general part at a concrete group within
tolerance. -/
theorem detectInternalSanity_spec_witness :
    detectInternalSanity sanityGroupOk = none :=
  (detectInternalSanity_spec.1 sanityGroupOk).1.mpr (by
    intro m hm
    have hmeq : m = sanityMktOk := by
      simpa [sanityGroupOk] using hm
    subst hmeq
    have hsum : outcomeSum sanityMktOk = 51/50 := by
      norm_num [outcomeSum, sanityMktOk]
    rw [hsum, show (51 : ℚ)/50 - 1 = 1/50 by norm_num,
      abs_of_nonneg (show (0 : ℚ) ≤ 1/50 by norm_num)]
    norm_num)

/-- C10: the internal-sanity detector has no minimum-group-size gate: a
single-market group whose prices are off by more than the tolerance yields a
non-empty detectOpportunities result containing an internal_sanity finding,
while the divergence and arbitrage detectors both return none for every
group with fewer than two markets. -/
theorem detectOpportunities_gates :
    (∀ g : MarketGroup, g.markets.length < 2 →
      detectCrossVenueDivergence g = none ∧ detectArbitrage g = none)
    ∧ (∀ (g : MarketGroup) (m : Market), g.markets = [m] → 3/100 < |outcomeSum m - 1| →
        detectOpportunities g ≠ []
        ∧ ∃ opp ∈ detectOpportunities g, opp.type = OppType.internal_sanity) := by
  have hpair : ∀ g : MarketGroup, g.markets.length < 2 →
      detectCrossVenueDivergence g = none ∧ detectArbitrage g = none := by
    intro g h
    constructor
    · rw [detectCrossVenueDivergence, if_pos h]
    · rw [detectArbitrage, if_pos h]
  refine ⟨hpair, ?_⟩
  intro g m hg hdev
  have hlen : g.markets.length < 2 := by rw [hg]; simp
  have hsan : g.markets.filterMap sanityIssueOf
      = [⟨m.id, m.venueId, m.venueName,
          (if 1 < outcomeSum m then "exceeds" else "below"), outcomeSum m⟩] := by
    rw [hg]
    simp only [List.filterMap_cons, List.filterMap_nil]
    rw [sanityIssueOf, if_pos hdev]
  obtain ⟨hndiv, hnarb⟩ := hpair g hlen
  have hsome : ∃ opp, detectInternalSanity g = some opp ∧ opp.type = OppType.internal_sanity := by
    rw [detectInternalSanity, if_neg (by rw [hsan]; simp)]
    exact ⟨_, rfl, rfl⟩
  obtain ⟨opp, hopp, htype⟩ := hsome
  have hall : detectOpportunities g = [opp] := by
    rw [detectOpportunities, hndiv, hnarb, hopp]
    rfl
  constructor
  · rw [hall]
    simp
  · exact ⟨opp, by rw [hall]; simp, htype⟩

/-- Witness for C10 at the concrete single-market group sanityGroupHigh. -/
theorem detectOpportunities_gates_witness :
    detectOpportunities sanityGroupHigh ≠ []
    ∧ ∃ opp ∈ detectOpportunities sanityGroupHigh, opp.type = OppType.internal_sanity :=
  detectOpportunities_gates.2 sanityGroupHigh sanityMktHigh rfl (by
    have hsum : outcomeSum sanityMktHigh = 21/20 := by
      norm_num [outcomeSum, sanityMktHigh]
    rw [hsum, show (21 : ℚ)/20 - 1 = 1/20 by norm_num,
      abs_of_nonneg (show (0 : ℚ) ≤ 1/20 by norm_num)]
    norm_num)

/-- Witness for the amended C7 on the plain string "yes no". -/
theorem normalizeOutcomeName_eq_normalizeText_witness :
    (∀ c ∈ (("yes no").data).map toLowerJS, isWordChar c = true ∨ c = ' ')
    ∧ noDoubleSpace ((("yes no").data).map toLowerJS) = true
    ∧ normalizeOutcomeName (("yes no").data) = normalizeText (("yes no").data) :=
  ⟨by decide, by decide,
    normalizeOutcomeName_eq_normalizeText_of_plain (("yes no").data) (by decide) (by decide)⟩

/-! ### C6: bucket spreads of the outcome aligner -/

theorem foldl_max_spec (rest : List ℚ) : ∀ a : ℚ,
    (rest.foldl max a = a ∨ rest.foldl max a ∈ rest)
    ∧ a ≤ rest.foldl max a ∧ ∀ q ∈ rest, q ≤ rest.foldl max a := by
  induction rest with
  | nil => intro a; exact ⟨Or.inl rfl, le_rfl, by simp⟩
  | cons b t ih =>
    intro a
    simp only [List.foldl_cons]
    obtain ⟨hmem, hle, hall⟩ := ih (max a b)
    refine ⟨?_, le_trans (le_max_left a b) hle, ?_⟩
    · rcases hmem with h | h
      · rcases max_choice a b with hc | hc
        · exact Or.inl (h.trans hc)
        · exact Or.inr (by rw [h, hc]; exact List.mem_cons_self _ _)
      · exact Or.inr (List.mem_cons_of_mem _ h)
    · intro q hq
      rcases List.mem_cons.mp hq with h | h
      · rw [h]
        exact le_trans (le_max_right a b) hle
      · exact hall q h

theorem foldl_min_spec (rest : List ℚ) : ∀ a : ℚ,
    (rest.foldl min a = a ∨ rest.foldl min a ∈ rest)
    ∧ rest.foldl min a ≤ a ∧ ∀ q ∈ rest, rest.foldl min a ≤ q := by
  induction rest with
  | nil => intro a; exact ⟨Or.inl rfl, le_rfl, by simp⟩
  | cons b t ih =>
    intro a
    simp only [List.foldl_cons]
    obtain ⟨hmem, hle, hall⟩ := ih (min a b)
    refine ⟨?_, le_trans hle (min_le_left a b), ?_⟩
    · rcases hmem with h | h
      · rcases min_choice a b with hc | hc
        · exact Or.inl (h.trans hc)
        · exact Or.inr (by rw [h, hc]; exact List.mem_cons_self _ _)
      · exact Or.inr (List.mem_cons_of_mem _ h)
    · intro q hq
      rcases List.mem_cons.mp hq with h | h
      · rw [h]
        exact le_trans hle (min_le_right a b)
      · exact hall q h

theorem maxList_spec (l : List ℚ) (hl : l ≠ []) :
    maxList l ∈ l ∧ ∀ q ∈ l, q ≤ maxList l := by
  cases l with
  | nil => exact absurd rfl hl
  | cons a rest =>
    rw [maxList]
    obtain ⟨hmem, hle, hall⟩ := foldl_max_spec rest a
    refine ⟨?_, ?_⟩
    · rcases hmem with h | h
      · rw [h]; exact List.mem_cons_self _ _
      · exact List.mem_cons_of_mem _ h
    · intro q hq
      rcases List.mem_cons.mp hq with h | h
      · exact h ▸ hle
      · exact hall q h

theorem minList_spec (l : List ℚ) (hl : l ≠ []) :
    minList l ∈ l ∧ ∀ q ∈ l, minList l ≤ q := by
  cases l with
  | nil => exact absurd rfl hl
  | cons a rest =>
    rw [minList]
    obtain ⟨hmem, hle, hall⟩ := foldl_min_spec rest a
    refine ⟨?_, ?_⟩
    · rcases hmem with h | h
      · rw [h]; exact List.mem_cons_self _ _
      · exact List.mem_cons_of_mem _ h
    · intro q hq
      rcases List.mem_cons.mp hq with h | h
      · exact h ▸ hle
      · exact hall q h

theorem pushPrice_preserve (key origName : List Char) (pe : PriceEntry) :
    ∀ l : List (List Char × OutcomeComparison),
      (∀ e ∈ l, e.2.spread = 0 ∧ e.2.spreadPercent = 0) →
      ∀ e ∈ pushPrice key origName pe l, e.2.spread = 0 ∧ e.2.spreadPercent = 0 := by
  intro l
  induction l with
  | nil =>
    intro _ e he
    rw [pushPrice, List.mem_singleton] at he
    rw [he]
    exact ⟨rfl, rfl⟩
  | cons hd tl ih =>
    intro hinv e he
    obtain ⟨k, comp⟩ := hd
    rw [pushPrice] at he
    by_cases hk : k = key
    · rw [if_pos hk] at he
      rcases List.mem_cons.mp he with h | h
      · rw [h]
        exact hinv (k, comp) (List.mem_cons_self _ _)
      · exact hinv e (List.mem_cons_of_mem _ h)
    · rw [if_neg hk] at he
      rcases List.mem_cons.mp he with h | h
      · rw [h]
        exact hinv (k, comp) (List.mem_cons_self _ _)
      · exact ih (fun x hx => hinv x (List.mem_cons_of_mem _ hx)) e h

theorem collectOutcomes_spread_zero (markets : List Market) :
    ∀ e ∈ collectOutcomes markets, e.2.spread = 0 ∧ e.2.spreadPercent = 0 := by
  have hout : ∀ (m : Market) (os : List Outcome) (acc : List (List Char × OutcomeComparison)),
      (∀ e ∈ acc, e.2.spread = 0 ∧ e.2.spreadPercent = 0) →
      ∀ e ∈ os.foldl (fun acc2 o =>
          pushPrice (normalizeOutcomeName o.name) o.name
            ⟨m.venueId, m.venueName, o.price, m.url⟩ acc2) acc,
        e.2.spread = 0 ∧ e.2.spreadPercent = 0 := by
    intro m os
    induction os with
    | nil =>
      intro acc h
      exact h
    | cons o os ih =>
      intro acc h
      simp only [List.foldl_cons]
      exact ih _ (pushPrice_preserve _ _ _ acc h)
  have hmk : ∀ (ms : List Market) (acc : List (List Char × OutcomeComparison)),
      (∀ e ∈ acc, e.2.spread = 0 ∧ e.2.spreadPercent = 0) →
      ∀ e ∈ ms.foldl (fun acc m =>
          m.outcomes.foldl (fun acc2 o =>
            pushPrice (normalizeOutcomeName o.name) o.name
              ⟨m.venueId, m.venueName, o.price, m.url⟩ acc2) acc) acc,
        e.2.spread = 0 ∧ e.2.spreadPercent = 0 := by
    intro ms
    induction ms with
    | nil =>
      intro acc h
      exact h
    | cons m ms ih =>
      intro acc h
      simp only [List.foldl_cons]
      exact ih _ (hout m m.outcomes acc h)
  intro e he
  rw [collectOutcomes] at he
  exact hmk markets [] (by simp) e he

/-- C6 amended: for every bucket produced by matchOutcomes with at least 2
price entries, spread = max price − min price and spreadPercent =
(spread / min price) × 100 when the minimum price is positive and 0
otherwise (never a division failure); single-contributor buckets retain
spread 0 and spreadPercent 0.  (The claim as frozen omits the × 100 factor;
see the counterexample.) -/
theorem matchOutcomes_spread_spec (markets : List Market) :
    ∀ e ∈ matchOutcomes markets,
      (2 ≤ e.2.prices.length →
        e.2.spread = maxList (priceList e.2) - minList (priceList e.2)
        ∧ maxList (priceList e.2) ∈ priceList e.2
        ∧ minList (priceList e.2) ∈ priceList e.2
        ∧ (∀ q ∈ priceList e.2, minList (priceList e.2) ≤ q ∧ q ≤ maxList (priceList e.2))
        ∧ e.2.spreadPercent =
            (if 0 < minList (priceList e.2)
              then (maxList (priceList e.2) - minList (priceList e.2))
                / minList (priceList e.2) * 100
              else 0))
      ∧ (e.2.prices.length ≤ 1 → e.2.spread = 0 ∧ e.2.spreadPercent = 0) := by
  intro e he
  rw [matchOutcomes] at he
  obtain ⟨e0, he0, heq⟩ := List.mem_map.mp he
  by_cases hlen : 1 < e0.2.prices.length
  · rw [if_pos hlen] at heq
    subst heq
    constructor
    · intro _
      have hne : priceList e0.2 ≠ [] := by
        intro hnil
        have hn := congrArg List.length hnil
        simp only [priceList, List.length_map, List.length_nil] at hn
        omega
      obtain ⟨hmaxmem, hmaxall⟩ := maxList_spec _ hne
      obtain ⟨hminmem, hminall⟩ := minList_spec _ hne
      exact ⟨rfl, hmaxmem, hminmem, fun q hq => ⟨hminall q hq, hmaxall q hq⟩, rfl⟩
    · intro hle
      exfalso
      have hle2 : e0.2.prices.length ≤ 1 := hle
      omega
  · rw [if_neg hlen] at heq
    subst heq
    constructor
    · intro h2
      exfalso
      have h2b : 2 ≤ e0.2.prices.length := h2
      omega
    · intro _
      exact collectOutcomes_spread_zero markets e0 he0

def spreadExampleA : Market :=
  ⟨"sa", "v1", "V1", [], none, none, none, [⟨("yes").data, 1/2⟩]⟩

def spreadExampleB : Market :=
  ⟨"sb", "v2", "V2", [], none, none, none, [⟨("yes").data, 1⟩]⟩

/-- Concrete evaluation of the aligner on a two-market group quoting the
"yes" outcome at 0.5 and 1. -/
theorem spreadExample_eval :
    matchOutcomes [spreadExampleA, spreadExampleB]
      = [(("yes").data, ⟨("yes").data,
          [⟨"v1", "V1", 1/2, none⟩, ⟨"v2", "V2", 1, none⟩], 1/2, 100⟩)] := by
  have hco : collectOutcomes [spreadExampleA, spreadExampleB]
      = [(("yes").data, ⟨("yes").data,
          [⟨"v1", "V1", 1/2, none⟩, ⟨"v2", "V2", 1, none⟩], 0, 0⟩)] := rfl
  have hmax : maxList [(1 : ℚ)/2, 1] = 1 := by
    rw [maxList]
    simp only [List.foldl_cons, List.foldl_nil]
    exact max_eq_right (by norm_num)
  have hmin : minList [(1 : ℚ)/2, 1] = 1/2 := by
    rw [minList]
    simp only [List.foldl_cons, List.foldl_nil]
    exact min_eq_left (by norm_num)
  rw [matchOutcomes, hco]
  simp only [List.map_cons, List.map_nil]
  have hpl : priceList (⟨("yes").data,
      [⟨"v1", "V1", 1/2, none⟩, ⟨"v2", "V2", 1, none⟩], 0, 0⟩ : OutcomeComparison)
      = [1/2, 1] := rfl
  rw [if_pos (show 1 < ((⟨("yes").data,
      [⟨"v1", "V1", 1/2, none⟩, ⟨"v2", "V2", 1, none⟩], 0, 0⟩ :
        OutcomeComparison)).prices.length by norm_num)]
  rw [hpl, hmax, hmin, if_pos (show (0 : ℚ) < 1/2 by norm_num)]
  rw [show (1 : ℚ) - 1/2 = 1/2 by norm_num,
    show ((1 : ℚ)/2) / (1/2) * 100 = 100 by norm_num]

/-- Counterexample for C6 as stated: on the bucket with prices 0.5 and 1 the
code stores spreadPercent = 100, whereas the claimed formula
spread / min price gives (0.5 / 0.5) = 1. -/
theorem matchOutcomes_spreadPercent_counterexample :
    ((matchOutcomes [spreadExampleA, spreadExampleB]).lookup (("yes").data)).map
        (fun c => (priceList c, c.spread, c.spreadPercent))
      = some ([1/2, 1], 1/2, 100)
    ∧ (100 : ℚ) ≠ (1/2) / (1/2) := by
  constructor
  · rw [spreadExample_eval]
    simp [List.lookup, priceList]
  · norm_num

/-- Witness for the amended C6 at the same concrete bucket. -/
theorem matchOutcomes_spread_spec_witness :
    ((("yes").data, (⟨("yes").data,
        [⟨"v1", "V1", 1/2, none⟩, ⟨"v2", "V2", 1, none⟩], 1/2, 100⟩ : OutcomeComparison))
      ∈ matchOutcomes [spreadExampleA, spreadExampleB])
    ∧ ((2 ≤ ([⟨"v1", "V1", (1 : ℚ)/2, none⟩, ⟨"v2", "V2", 1, none⟩] : List PriceEntry).length →
        (⟨("yes").data, [⟨"v1", "V1", 1/2, none⟩, ⟨"v2", "V2", 1, none⟩], 1/2, 100⟩ :
            OutcomeComparison).spread
          = maxList (priceList ⟨("yes").data,
              [⟨"v1", "V1", 1/2, none⟩, ⟨"v2", "V2", 1, none⟩], 1/2, 100⟩)
            - minList (priceList ⟨("yes").data,
              [⟨"v1", "V1", 1/2, none⟩, ⟨"v2", "V2", 1, none⟩], 1/2, 100⟩)
        ∧ maxList (priceList ⟨("yes").data,
            [⟨"v1", "V1", 1/2, none⟩, ⟨"v2", "V2", 1, none⟩], 1/2, 100⟩)
          ∈ priceList ⟨("yes").data,
            [⟨"v1", "V1", 1/2, none⟩, ⟨"v2", "V2", 1, none⟩], 1/2, 100⟩
        ∧ minList (priceList ⟨("yes").data,
            [⟨"v1", "V1", 1/2, none⟩, ⟨"v2", "V2", 1, none⟩], 1/2, 100⟩)
          ∈ priceList ⟨("yes").data,
            [⟨"v1", "V1", 1/2, none⟩, ⟨"v2", "V2", 1, none⟩], 1/2, 100⟩
        ∧ (∀ q ∈ priceList (⟨("yes").data,
              [⟨"v1", "V1", 1/2, none⟩, ⟨"v2", "V2", 1, none⟩], 1/2, 100⟩ : OutcomeComparison),
            minList (priceList ⟨("yes").data,
              [⟨"v1", "V1", 1/2, none⟩, ⟨"v2", "V2", 1, none⟩], 1/2, 100⟩) ≤ q
            ∧ q ≤ maxList (priceList ⟨("yes").data,
              [⟨"v1", "V1", 1/2, none⟩, ⟨"v2", "V2", 1, none⟩], 1/2, 100⟩))
        ∧ (⟨("yes").data, [⟨"v1", "V1", 1/2, none⟩, ⟨"v2", "V2", 1, none⟩], 1/2, 100⟩ :
            OutcomeComparison).spreadPercent =
          (if 0 < minList (priceList ⟨("yes").data,
              [⟨"v1", "V1", 1/2, none⟩, ⟨"v2", "V2", 1, none⟩], 1/2, 100⟩)
            then (maxList (priceList ⟨("yes").data,
                [⟨"v1", "V1", 1/2, none⟩, ⟨"v2", "V2", 1, none⟩], 1/2, 100⟩)
              - minList (priceList ⟨("yes").data,
                [⟨"v1", "V1", 1/2, none⟩, ⟨"v2", "V2", 1, none⟩], 1/2, 100⟩))
              / minList (priceList ⟨("yes").data,
                [⟨"v1", "V1", 1/2, none⟩, ⟨"v2", "V2", 1, none⟩], 1/2, 100⟩) * 100
            else 0))
      ∧ (([⟨"v1", "V1", (1 : ℚ)/2, none⟩, ⟨"v2", "V2", 1, none⟩] : List PriceEntry).length ≤ 1 →
        (⟨("yes").data, [⟨"v1", "V1", 1/2, none⟩, ⟨"v2", "V2", 1, none⟩], 1/2, 100⟩ :
            OutcomeComparison).spread = 0
        ∧ (⟨("yes").data, [⟨"v1", "V1", 1/2, none⟩, ⟨"v2", "V2", 1, none⟩], 1/2, 100⟩ :
            OutcomeComparison).spreadPercent = 0)) := by
  have hmem : ((("yes").data, (⟨("yes").data,
      [⟨"v1", "V1", 1/2, none⟩, ⟨"v2", "V2", 1, none⟩], 1/2, 100⟩ : OutcomeComparison))
      ∈ matchOutcomes [spreadExampleA, spreadExampleB]) := by
    rw [spreadExample_eval]
    exact List.mem_singleton.mpr rfl
  exact ⟨hmem, matchOutcomes_spread_spec [spreadExampleA, spreadExampleB] _ hmem⟩

/-! ### C1, C2, C8: the pairwise match scorer -/

theorem calcNoneAux (m1 m2 : Market) :
    calculateMatchScore m1 m2 = none ↔
      m1.venueId = m2.venueId
      ∨ titleSim m1 m2 < 1/2
      ∨ (extractEntities m1.title ≠ [] ∧ extractEntities m2.title ≠ [] ∧ commonEnts m1 m2 = [])
      ∨ matchTotalScore m1 m2 < 55 := by
  unfold calculateMatchScore
  split_ifs with h1 h2 h3 h4
  · exact iff_of_true rfl (Or.inl h1)
  · exact iff_of_true rfl (Or.inr (Or.inl h2))
  · exact iff_of_true rfl (Or.inr (Or.inr (Or.inl h3)))
  · exact iff_of_true rfl (Or.inr (Or.inr (Or.inr h4)))
  · refine iff_of_false (by simp) ?_
    rintro (h | h | h | h)
    · exact h1 h
    · exact h2 h
    · exact h3 h
    · exact h4 h

theorem calcSomeAux (m1 m2 : Market) (h1 : ¬ m1.venueId = m2.venueId)
    (h2 : ¬ titleSim m1 m2 < 1/2)
    (h3 : ¬(extractEntities m1.title ≠ [] ∧ extractEntities m2.title ≠ []
      ∧ commonEnts m1 m2 = []))
    (h4 : ¬ matchTotalScore m1 m2 < 55) :
    calculateMatchScore m1 m2 = some ⟨m1, m2, matchTotalScore m1 m2⟩ := by
  unfold calculateMatchScore
  rw [if_neg h1, if_neg h2, if_neg h3, if_neg h4]

theorem filter_mem_nil_comm (l1 l2 : List (List Char)) :
    (l1.filter (fun x => x ∈ l2)) = [] ↔ (l2.filter (fun x => x ∈ l1)) = [] := by
  simp only [List.filter_eq_nil_iff, decide_eq_true_eq]
  constructor
  · intro h a ha hb
    exact h a hb ha
  · intro h a ha hb
    exact h a hb ha

theorem filter_mem_length_comm {l1 l2 : List (List Char)} (h1 : l1.Nodup) (h2 : l2.Nodup) :
    (l1.filter (fun x => x ∈ l2)).length = (l2.filter (fun x => x ∈ l1)).length := by
  rw [← List.toFinset_card_of_nodup (h1.filter _), ← List.toFinset_card_of_nodup (h2.filter _)]
  congr 1
  ext x
  simp only [List.mem_toFinset, List.mem_filter, decide_eq_true_eq]
  tauto

theorem titleSim_comm (m1 m2 : Market) : titleSim m1 m2 = titleSim m2 m1 :=
  stringSimilarity_comm _ _

theorem commonEnts_nil_comm (m1 m2 : Market) :
    commonEnts m1 m2 = [] ↔ commonEnts m2 m1 = [] :=
  filter_mem_nil_comm _ _

theorem commonEnts_length_comm (m1 m2 : Market) :
    (commonEnts m1 m2).length = (commonEnts m2 m1).length :=
  filter_mem_length_comm (nodup_extractEntities _) (nodup_extractEntities _)

theorem commonYears_nil_comm (m1 m2 : Market) :
    commonYears m1 m2 = [] ↔ commonYears m2 m1 = [] :=
  filter_mem_nil_comm _ _

theorem entityPoints_comm (m1 m2 : Market) : entityPoints m1 m2 = entityPoints m2 m1 := by
  unfold entityPoints
  by_cases h : commonEnts m1 m2 = []
  · rw [if_neg (not_not_intro h),
      if_neg (not_not_intro ((commonEnts_nil_comm m1 m2).mp h))]
  · rw [if_pos h, if_pos (fun hc => h ((commonEnts_nil_comm m1 m2).mpr hc)),
      commonEnts_length_comm]

theorem yearPoints_comm (m1 m2 : Market) : yearPoints m1 m2 = yearPoints m2 m1 := by
  unfold yearPoints
  by_cases h : commonYears m1 m2 = []
  · rw [if_neg (not_not_intro h),
      if_neg (not_not_intro ((commonYears_nil_comm m1 m2).mp h))]
  · rw [if_pos h, if_pos (fun hc => h ((commonYears_nil_comm m1 m2).mpr hc))]

theorem matchTotalScore_comm (m1 m2 : Market) :
    matchTotalScore m1 m2 = matchTotalScore m2 m1 := by
  unfold matchTotalScore
  rw [titleSim_comm, entityPoints_comm, yearPoints_comm]

/-- C1: calculateMatchScore returns none exactly when a rejection gate
fires: same venue, or normalized-title similarity below 0.50, or both
entity sets non-empty with empty intersection, or accumulated total score
below 55.  In particular two same-venue markets never match, whatever the
titles (instantiate the right-hand side with the first disjunct). -/
theorem calculateMatchScore_none_iff (m1 m2 : Market) :
    calculateMatchScore m1 m2 = none ↔
      m1.venueId = m2.venueId
      ∨ titleSim m1 m2 < 1/2
      ∨ (extractEntities m1.title ≠ [] ∧ extractEntities m2.title ≠ [] ∧ commonEnts m1 m2 = [])
      ∨ matchTotalScore m1 m2 < 55 :=
  calcNoneAux m1 m2

def witMktP : Market :=
  ⟨"p1", "polymarket", "Polymarket", ("bitcoin").data, none, none, none, []⟩

def witMktP2 : Market :=
  ⟨"p2", "polymarket", "Polymarket", ("ethereum merge").data, none, none, none, []⟩

def witMktK : Market :=
  ⟨"k1", "kalshi", "Kalshi", ("bitcoin").data, none, none, none, []⟩

/-- Witness for C1: two markets of the same venue with different titles
yield none. -/
theorem calculateMatchScore_none_iff_witness :
    calculateMatchScore witMktP witMktP2 = none :=
  (calculateMatchScore_none_iff witMktP witMktP2).mpr (Or.inl rfl)

theorem stringSimilarity_self (s : List Char) (h : 2 ≤ s.length) :
    stringSimilarity s s = 1 := by
  unfold stringSimilarity
  simp only [List.length_map]
  rw [if_neg (by omega)]
  have hmc : matchCount (bigrams (s.map toLowerJS) : Multiset (Char × Char))
      (bigrams (s.map toLowerJS)) = s.length - 1 := by
    rw [matchCount_eq_card_inter]
    have hself : (bigrams (s.map toLowerJS) : Multiset (Char × Char))
        ∩ (bigrams (s.map toLowerJS) : Multiset (Char × Char))
        = (bigrams (s.map toLowerJS) : Multiset (Char × Char)) :=
      le_antisymm (Multiset.inter_le_left _ _) (Multiset.le_inter le_rfl le_rfl)
    rw [hself, Multiset.coe_card, bigrams_length, List.length_map]
  rw [hmc]
  have h1 : 1 ≤ s.length := by omega
  have hcast : ((s.length - 1 : ℕ) : ℚ) = (s.length : ℚ) - 1 := by
    push_cast [Nat.cast_sub h1]
    ring
  rw [hcast]
  have hge : (2 : ℚ) ≤ (s.length : ℚ) := by exact_mod_cast h
  have hden : (s.length : ℚ) + (s.length : ℚ) - 2 ≠ 0 := by
    intro hzero
    linarith
  rw [div_eq_one_iff_eq hden]
  ring

/-- C2: every candidate's score is titleSimilarity × 50 plus the entity
contribution (min(count × 10, 30) when the intersection is non-empty) plus
the flat 10-point year bonus when a 20xx year is shared, with
titleSimilarity in [0, 1]; consequently the score lies in [55, 90]. -/
theorem calculateMatchScore_some_score (m1 m2 : Market) (c : MatchCandidate)
    (h : calculateMatchScore m1 m2 = some c) :
    c.score = titleSim m1 m2 * 50 + entityPoints m1 m2 + yearPoints m1 m2
    ∧ 0 ≤ titleSim m1 m2 ∧ titleSim m1 m2 ≤ 1
    ∧ 55 ≤ c.score ∧ c.score ≤ 90 := by
  have hsim0 : 0 ≤ titleSim m1 m2 := stringSimilarity_nonneg _ _
  have hsim1 : titleSim m1 m2 ≤ 1 := stringSimilarity_le_one _ _
  have hnone : calculateMatchScore m1 m2 ≠ none := by
    rw [h]
    simp
  have hd : ¬(m1.venueId = m2.venueId
      ∨ titleSim m1 m2 < 1/2
      ∨ (extractEntities m1.title ≠ [] ∧ extractEntities m2.title ≠ [] ∧ commonEnts m1 m2 = [])
      ∨ matchTotalScore m1 m2 < 55) :=
    fun hdisj => hnone ((calcNoneAux m1 m2).mpr hdisj)
  have h4 : ¬ matchTotalScore m1 m2 < 55 := fun hlt => hd (Or.inr (Or.inr (Or.inr hlt)))
  have hsome := calcSomeAux m1 m2 (fun he => hd (Or.inl he))
    (fun he => hd (Or.inr (Or.inl he)))
    (fun he => hd (Or.inr (Or.inr (Or.inl he)))) h4
  rw [hsome] at h
  have hc : c = ⟨m1, m2, matchTotalScore m1 m2⟩ := (Option.some.inj h).symm
  subst hc
  refine ⟨rfl, hsim0, hsim1, not_lt.mp h4, ?_⟩
  have he : entityPoints m1 m2 ≤ 30 := by
    unfold entityPoints
    split_ifs
    · exact min_le_right _ _
    · norm_num
  have hy : yearPoints m1 m2 ≤ 10 := by
    unfold yearPoints
    split_ifs <;> norm_num
  have hs50 : titleSim m1 m2 * 50 ≤ 50 := by nlinarith [hsim1]
  show matchTotalScore m1 m2 ≤ 90
  unfold matchTotalScore
  linarith

/-- Witness for C2: "bitcoin" on two venues matches with score 60 ∈ [55, 90]. -/
theorem calculateMatchScore_some_score_witness :
    calculateMatchScore witMktP witMktK = some ⟨witMktP, witMktK, 60⟩
    ∧ ((⟨witMktP, witMktK, 60⟩ : MatchCandidate).score
        = titleSim witMktP witMktK * 50 + entityPoints witMktP witMktK
          + yearPoints witMktP witMktK
      ∧ 0 ≤ titleSim witMktP witMktK ∧ titleSim witMktP witMktK ≤ 1
      ∧ 55 ≤ (⟨witMktP, witMktK, 60⟩ : MatchCandidate).score
      ∧ (⟨witMktP, witMktK, 60⟩ : MatchCandidate).score ≤ 90) := by
  have hsim : titleSim witMktP witMktK = 1 := by
    unfold titleSim
    rw [show normTitle witMktP = ("bitcoin").data from rfl,
      show normTitle witMktK = ("bitcoin").data from rfl]
    exact stringSimilarity_self _ (by decide)
  have hce : commonEnts witMktP witMktK = [("bitcoin").data] := by decide
  have hcy : commonYears witMktP witMktK = [] := by decide
  have hep : entityPoints witMktP witMktK = 10 := by
    rw [entityPoints, if_pos (by rw [hce]; simp), hce]
    have hl : (([("bitcoin").data] : List (List Char)).length : ℚ) * 10 = 10 := by simp
    rw [hl]
    exact min_eq_left (by norm_num)
  have hyp : yearPoints witMktP witMktK = 0 := by
    rw [yearPoints, if_neg (by rw [hcy]; simp)]
  have htot : matchTotalScore witMktP witMktK = 60 := by
    rw [matchTotalScore, hsim, hep, hyp]
    norm_num
  have hcalc : calculateMatchScore witMktP witMktK = some ⟨witMktP, witMktK, 60⟩ := by
    have hs := calcSomeAux witMktP witMktK (by decide)
      (by rw [hsim]; norm_num)
      (fun hg => by rw [hce] at hg; exact absurd hg.2.2 (by simp))
      (by rw [htot]; norm_num)
    rw [hs, htot]
  exact ⟨hcalc, calculateMatchScore_some_score _ _ _ hcalc⟩

/-- C8: pairwise scoring is symmetric — swapping the arguments preserves
accept/reject and, on acceptance, the numeric score. -/
theorem calculateMatchScore_symm (m1 m2 : Market) :
    (calculateMatchScore m1 m2).map (fun c => c.score)
      = (calculateMatchScore m2 m1).map (fun c => c.score) := by
  by_cases hd : m1.venueId = m2.venueId
      ∨ titleSim m1 m2 < 1/2
      ∨ (extractEntities m1.title ≠ [] ∧ extractEntities m2.title ≠ [] ∧ commonEnts m1 m2 = [])
      ∨ matchTotalScore m1 m2 < 55
  · have hd2 : m2.venueId = m1.venueId
        ∨ titleSim m2 m1 < 1/2
        ∨ (extractEntities m2.title ≠ [] ∧ extractEntities m1.title ≠ []
          ∧ commonEnts m2 m1 = [])
        ∨ matchTotalScore m2 m1 < 55 := by
      rcases hd with h | h | h | h
      · exact Or.inl h.symm
      · exact Or.inr (Or.inl (by rw [titleSim_comm m2 m1]; exact h))
      · exact Or.inr (Or.inr (Or.inl ⟨h.2.1, h.1, (commonEnts_nil_comm m1 m2).mp h.2.2⟩))
      · exact Or.inr (Or.inr (Or.inr (by rw [matchTotalScore_comm m2 m1]; exact h)))
    rw [(calcNoneAux m1 m2).mpr hd, (calcNoneAux m2 m1).mpr hd2]
  · have h1 : ¬ m1.venueId = m2.venueId := fun h => hd (Or.inl h)
    have h2 : ¬ titleSim m1 m2 < 1/2 := fun h => hd (Or.inr (Or.inl h))
    have h3 : ¬(extractEntities m1.title ≠ [] ∧ extractEntities m2.title ≠ []
        ∧ commonEnts m1 m2 = []) := fun h => hd (Or.inr (Or.inr (Or.inl h)))
    have h4 : ¬ matchTotalScore m1 m2 < 55 := fun h => hd (Or.inr (Or.inr (Or.inr h)))
    have h1b : ¬ m2.venueId = m1.venueId := fun h => h1 h.symm
    have h2b : ¬ titleSim m2 m1 < 1/2 := by
      rw [titleSim_comm m2 m1]
      exact h2
    have h3b : ¬(extractEntities m2.title ≠ [] ∧ extractEntities m1.title ≠ []
        ∧ commonEnts m2 m1 = []) :=
      fun hg => h3 ⟨hg.2.1, hg.1, (commonEnts_nil_comm m2 m1).mp hg.2.2⟩
    have h4b : ¬ matchTotalScore m2 m1 < 55 := by
      rw [matchTotalScore_comm m2 m1]
      exact h4
    rw [calcSomeAux m1 m2 h1 h2 h3 h4, calcSomeAux m2 m1 h1b h2b h3b h4b]
    simp only [Option.map_some']
    rw [matchTotalScore_comm m1 m2]

/-! ### C3: the group assigner -/

theorem mem_mapSet : ∀ (l : List (String × List Market)) (k : String) (v : List Market)
    (e : String × List Market), e ∈ mapSet l k v → e = (k, v) ∨ e ∈ l := by
  intro l k v
  induction l with
  | nil =>
    intro e he
    rw [mapSet, List.mem_singleton] at he
    exact Or.inl he
  | cons hd tl ih =>
    obtain ⟨k2, v2⟩ := hd
    intro e he
    rw [mapSet] at he
    by_cases hk : k2 = k
    · rw [if_pos hk] at he
      rcases List.mem_cons.mp he with h | h
      · exact Or.inl h
      · exact Or.inr (List.mem_cons_of_mem _ h)
    · rw [if_neg hk] at he
      rcases List.mem_cons.mp he with h | h
      · exact Or.inr (by rw [h]; exact List.mem_cons_self _ _)
      · rcases ih e h with h2 | h2
        · exact Or.inl h2
        · exact Or.inr (List.mem_cons_of_mem _ h2)

theorem pairwise_mapSet {R : (String × List Market) → (String × List Market) → Prop} :
    ∀ (l : List (String × List Market)) (k : String) (v : List Market),
    List.Pairwise R l → (∀ e ∈ l, R e (k, v)) → (∀ e ∈ l, R (k, v) e) →
    List.Pairwise R (mapSet l k v) := by
  intro l k v
  induction l with
  | nil =>
    intro _ _ _
    rw [mapSet]
    simp
  | cons hd tl ih =>
    intro hpw h1 h2
    obtain ⟨k2, v2⟩ := hd
    rcases List.pairwise_cons.mp hpw with ⟨hhd, htl⟩
    rw [mapSet]
    by_cases hk : k2 = k
    · rw [if_pos hk]
      refine List.pairwise_cons.mpr ⟨?_, htl⟩
      intro e he
      exact h2 e (List.mem_cons_of_mem _ he)
    · rw [if_neg hk]
      refine List.pairwise_cons.mpr
        ⟨?_, ih htl (fun e he => h1 e (List.mem_cons_of_mem _ he))
          (fun e he => h2 e (List.mem_cons_of_mem _ he))⟩
      intro e he
      rcases mem_mapSet tl k v e he with h | h
      · rw [h]
        exact h1 (k2, v2) (List.mem_cons_self _ _)
      · exact hhd e h

theorem groupMatchesAux_inv (P : MatchCandidate → Prop) :
    ∀ (l : List MatchCandidate) (groups : List (String × List Market)) (used : List String),
    (∀ c ∈ l, P c) →
    (∀ e ∈ groups, ∀ m ∈ e.2, m.id ∈ used) →
    List.Pairwise (fun e1 e2 => ∀ a ∈ e1.2, ∀ b ∈ e2.2, a.id ≠ b.id) groups →
    (∀ e ∈ groups, ∃ c, P c
      ∧ e = (c.market1.id ++ "-" ++ c.market2.id, [c.market1, c.market2])) →
    (∀ e ∈ (groupMatchesAux l groups used).1, ∀ m ∈ e.2,
        m.id ∈ (groupMatchesAux l groups used).2)
    ∧ List.Pairwise (fun e1 e2 => ∀ a ∈ e1.2, ∀ b ∈ e2.2, a.id ≠ b.id)
        (groupMatchesAux l groups used).1
    ∧ (∀ e ∈ (groupMatchesAux l groups used).1, ∃ c, P c
        ∧ e = (c.market1.id ++ "-" ++ c.market2.id, [c.market1, c.market2]))
    ∧ (∀ c ∈ l, c.market1.id ∈ (groupMatchesAux l groups used).2
        ∨ c.market2.id ∈ (groupMatchesAux l groups used).2)
    ∧ (∀ x ∈ used, x ∈ (groupMatchesAux l groups used).2) := by
  intro l
  induction l with
  | nil =>
    intro groups used hl hid hpw hprov
    rw [groupMatchesAux]
    exact ⟨hid, hpw, hprov, by simp, fun x hx => hx⟩
  | cons c cs ih =>
    intro groups used hl hid hpw hprov
    rw [groupMatchesAux]
    by_cases hskip : c.market1.id ∈ used ∨ c.market2.id ∈ used
    · rw [if_pos hskip]
      obtain ⟨ih1, ih2, ih3, ih4, ih5⟩ :=
        ih groups used (fun x hx => hl x (List.mem_cons_of_mem _ hx)) hid hpw hprov
      refine ⟨ih1, ih2, ih3, ?_, ih5⟩
      intro c2 hc2
      rcases List.mem_cons.mp hc2 with h | h
      · subst h
        rcases hskip with h2 | h2
        · exact Or.inl (ih5 _ h2)
        · exact Or.inr (ih5 _ h2)
      · exact ih4 c2 h
    · rw [if_neg hskip]
      push_neg at hskip
      obtain ⟨hsk1, hsk2⟩ := hskip
      have hid2 : ∀ e ∈ mapSet groups (c.market1.id ++ "-" ++ c.market2.id)
          [c.market1, c.market2], ∀ m ∈ e.2,
          m.id ∈ c.market1.id :: c.market2.id :: used := by
        intro e he m hm
        rcases mem_mapSet _ _ _ e he with h | h
        · rw [h] at hm
          rcases List.mem_cons.mp hm with h2 | h2
          · rw [h2]
            exact List.mem_cons_self _ _
          · rw [List.mem_singleton.mp h2]
            exact List.mem_cons_of_mem _ (List.mem_cons_self _ _)
        · exact List.mem_cons_of_mem _ (List.mem_cons_of_mem _ (hid e h m hm))
      have hnew1 : ∀ e ∈ groups, ∀ a ∈ e.2, ∀ b ∈ ([c.market1, c.market2] : List Market),
          a.id ≠ b.id := by
        intro e he a ha b hb heq
        have haid : a.id ∈ used := hid e he a ha
        rcases List.mem_cons.mp hb with h2 | h2
        · rw [h2] at heq
          exact hsk1 (heq ▸ haid)
        · rw [List.mem_singleton.mp h2] at heq
          exact hsk2 (heq ▸ haid)
      have hpw2 : List.Pairwise (fun e1 e2 => ∀ a ∈ e1.2, ∀ b ∈ e2.2, a.id ≠ b.id)
          (mapSet groups (c.market1.id ++ "-" ++ c.market2.id) [c.market1, c.market2]) := by
        refine pairwise_mapSet _ _ _ hpw ?_ ?_
        · intro e he
          exact hnew1 e he
        · intro e he a ha b hb heq
          exact hnew1 e he b hb a ha heq.symm
      have hprov2 : ∀ e ∈ mapSet groups (c.market1.id ++ "-" ++ c.market2.id)
          [c.market1, c.market2], ∃ c2, P c2
          ∧ e = (c2.market1.id ++ "-" ++ c2.market2.id, [c2.market1, c2.market2]) := by
        intro e he
        rcases mem_mapSet _ _ _ e he with h | h
        · exact ⟨c, hl c (List.mem_cons_self _ _), h⟩
        · exact hprov e h
      obtain ⟨ih1, ih2, ih3, ih4, ih5⟩ :=
        ih _ _ (fun x hx => hl x (List.mem_cons_of_mem _ hx)) hid2 hpw2 hprov2
      refine ⟨ih1, ih2, ih3, ?_, ?_⟩
      · intro c2 hc2
        rcases List.mem_cons.mp hc2 with h | h
        · subst h
          exact Or.inl (ih5 _ (List.mem_cons_self _ _))
        · exact ih4 c2 h
      · intro x hx
        exact ih5 x (List.mem_cons_of_mem _ (List.mem_cons_of_mem _ hx))

/-- C3: groupMatches never places the same market id in two groups; every
group is exactly the two markets of one accepted candidate with score ≥
minScore; the candidate walk is in descending score order (findAllMatches
sorts descending); and no candidate with score ≥ minScore ends with both of
its markets unused — so no such candidate is ever passed over in favor of a
lower-scoring one. -/
theorem groupMatches_spec :
    (∀ markets : List Market,
      List.Pairwise (fun a b : MatchCandidate => b.score ≤ a.score) (findAllMatches markets))
    ∧ ∀ (markets : List Market) (cands : List MatchCandidate) (minScore : ℚ),
      List.Pairwise (fun e1 e2 => ∀ a ∈ e1.2, ∀ b ∈ e2.2, a.id ≠ b.id)
        (groupMatches markets cands minScore)
      ∧ (∀ e ∈ groupMatches markets cands minScore, ∃ c, (c ∈ cands ∧ minScore ≤ c.score)
          ∧ e = (c.market1.id ++ "-" ++ c.market2.id, [c.market1, c.market2]))
      ∧ (∀ c ∈ cands, minScore ≤ c.score →
          c.market1.id ∈ (groupMatchesAux (cands.filter (fun m => minScore ≤ m.score)) [] []).2
          ∨ c.market2.id
            ∈ (groupMatchesAux (cands.filter (fun m => minScore ≤ m.score)) [] []).2) := by
  constructor
  · intro markets
    have htrans : ∀ a b c : MatchCandidate,
        (decide (b.score ≤ a.score)) = true → (decide (c.score ≤ b.score)) = true →
        (decide (c.score ≤ a.score)) = true := by
      intro a b c hab hbc
      simp only [decide_eq_true_eq] at hab hbc ⊢
      exact le_trans hbc hab
    have htot : ∀ a b : MatchCandidate,
        ((decide (b.score ≤ a.score)) || (decide (a.score ≤ b.score))) = true := by
      intro a b
      simp only [Bool.or_eq_true, decide_eq_true_eq]
      exact le_total _ _
    have hp := List.sorted_mergeSort htrans htot (collectMatches markets)
    exact List.Pairwise.imp (fun hab => of_decide_eq_true hab) hp
  · intro markets cands minScore
    have hl : ∀ c ∈ cands.filter (fun m => minScore ≤ m.score),
        c ∈ cands ∧ minScore ≤ c.score := by
      intro c hc
      have hm := List.mem_filter.mp hc
      exact ⟨hm.1, by simpa using hm.2⟩
    obtain ⟨hi1, hi2, hi3, hi4, hi5⟩ :=
      groupMatchesAux_inv (fun c => c ∈ cands ∧ minScore ≤ c.score)
        (cands.filter (fun m => minScore ≤ m.score)) [] [] hl (by simp) (by simp) (by simp)
    refine ⟨hi2, hi3, ?_⟩
    intro c hc hscore
    exact hi4 c (List.mem_filter.mpr ⟨hc, by simpa using hscore⟩)

/-- Witness for C3 at a concrete one-candidate list. -/
theorem groupMatches_spec_witness :
    ((⟨witMktP, witMktK, 60⟩ : MatchCandidate) ∈ ([⟨witMktP, witMktK, 60⟩] : List MatchCandidate))
    ∧ (55 : ℚ) ≤ (⟨witMktP, witMktK, 60⟩ : MatchCandidate).score
    ∧ ((⟨witMktP, witMktK, 60⟩ : MatchCandidate).market1.id
        ∈ (groupMatchesAux (([⟨witMktP, witMktK, 60⟩] : List MatchCandidate).filter
            (fun m => (55 : ℚ) ≤ m.score)) [] []).2
      ∨ (⟨witMktP, witMktK, 60⟩ : MatchCandidate).market2.id
        ∈ (groupMatchesAux (([⟨witMktP, witMktK, 60⟩] : List MatchCandidate).filter
            (fun m => (55 : ℚ) ≤ m.score)) [] []).2) := by
  refine ⟨List.mem_singleton.mpr rfl, by norm_num, ?_⟩
  exact (groupMatches_spec.2 [] [⟨witMktP, witMktK, 60⟩] 55).2.2 _
    (List.mem_singleton.mpr rfl) (by norm_num)

/-! ### C4: the arbitrage detector -/

/-- The invariant maintained by the bestArbitrage loop over the processed
prefix of the cross-venue pair list: none iff every processed pair is at or
below the −0.02 floor, and the held candidate carries the profit/percent of
some processed pair, is guaranteed_profit exactly when a positive-profit
pair has been seen, and is maximal within its class. -/
def GoodBest (processed : List (PriceEntry × PriceEntry)) (best : Option ArbitrageInfo) : Prop :=
  (best = none ↔ ∀ p ∈ processed, pairProfit p ≤ -(1/50))
  ∧ ∀ b : ArbitrageInfo, best = some b →
      (∃ p ∈ processed, b.profit = pairProfit p
        ∧ b.profitPercent = pairProfit p / pairCost p * 100)
      ∧ (b.type = ArbType.guaranteed_profit ↔ ∃ p ∈ processed, 0 < pairProfit p)
      ∧ (b.type = ArbType.guaranteed_profit →
          0 < b.profit ∧ ∀ p ∈ processed, 0 < pairProfit p → pairProfit p ≤ b.profit)
      ∧ (b.type = ArbType.near_arbitrage →
          (-(1/50) < b.profit ∧ b.profit ≤ 0)
          ∧ ∀ p ∈ processed, -(1/50) < pairProfit p → pairProfit p ≤ b.profit)

theorem mem_append_singleton {α : Type} {q p : α} {l : List α}
    (h : q ∈ l ++ [p]) : q ∈ l ∨ q = p := by
  rcases List.mem_append.mp h with h2 | h2
  · exact Or.inl h2
  · exact Or.inr (List.mem_singleton.mp h2)

theorem goodBest_step (processed : List (PriceEntry × PriceEntry))
    (best : Option ArbitrageInfo) (p : PriceEntry × PriceEntry)
    (h : GoodBest processed best) : GoodBest (processed ++ [p]) (classifyStep best p) := by
  have hpmem : p ∈ processed ++ [p] := List.mem_append.mpr (Or.inr (List.mem_singleton.mpr rfl))
  unfold classifyStep
  by_cases hpos : 0 < pairProfit p
  · rw [if_pos hpos]
    cases best with
    | none =>
      constructor
      · refine iff_of_false (by simp) ?_
        intro hall
        have := hall p hpmem
        linarith
      · intro b hb
        have hbe : b = ⟨ArbType.guaranteed_profit, mkBuyVenue p, "", pairProfit p,
            pairProfit p / pairCost p * 100⟩ := (Option.some.inj hb).symm
        subst hbe
        refine ⟨⟨p, hpmem, rfl, rfl⟩, iff_of_true rfl ⟨p, hpmem, hpos⟩, ?_, ?_⟩
        · intro _
          refine ⟨hpos, ?_⟩
          intro q hq hqpos
          rcases mem_append_singleton hq with h2 | h2
          · have := h.1.mp rfl q h2
            linarith
          · rw [h2]
        · intro ht
          exact absurd ht (by simp)
    | some b0 =>
      obtain ⟨hex, hiff, hgua, hnear0⟩ := h.2 b0 rfl
      dsimp only
      by_cases hlt : b0.profit < pairProfit p
      · rw [if_pos hlt]
        constructor
        · refine iff_of_false (by simp) ?_
          intro hall
          have := hall p hpmem
          linarith
        · intro b hb
          have hbe : b = ⟨ArbType.guaranteed_profit, mkBuyVenue p, "", pairProfit p,
              pairProfit p / pairCost p * 100⟩ := (Option.some.inj hb).symm
          subst hbe
          refine ⟨⟨p, hpmem, rfl, rfl⟩, iff_of_true rfl ⟨p, hpmem, hpos⟩, ?_, ?_⟩
          · intro _
            refine ⟨hpos, ?_⟩
            intro q hq hqpos
            rcases mem_append_singleton hq with h2 | h2
            · cases hbt : b0.type with
              | guaranteed_profit =>
                have := (hgua hbt).2 q h2 hqpos
                linarith
              | near_arbitrage =>
                exfalso
                have hno : ¬ ∃ q2 ∈ processed, 0 < pairProfit q2 := by
                  intro hex2
                  have := hiff.mpr hex2
                  rw [hbt] at this
                  exact ArbType.noConfusion this
                exact hno ⟨q, h2, hqpos⟩
            · rw [h2]
          · intro ht
            exact absurd ht (by simp)
      · rw [if_neg hlt]
        have hb0g : b0.type = ArbType.guaranteed_profit := by
          cases hbt : b0.type with
          | guaranteed_profit => rfl
          | near_arbitrage =>
            exfalso
            have hb0le : b0.profit ≤ 0 := ((hnear0 hbt).1).2
            exact hlt (lt_of_le_of_lt hb0le hpos)
        constructor
        · refine iff_of_false (by simp) ?_
          intro hall
          have := hall p hpmem
          linarith
        · intro b hb
          have hbe : b = b0 := (Option.some.inj hb).symm
          subst hbe
          obtain ⟨q0, hq0, hq0e⟩ := hex
          refine ⟨⟨q0, List.mem_append.mpr (Or.inl hq0), hq0e⟩,
            iff_of_true hb0g ⟨p, hpmem, hpos⟩, ?_, ?_⟩
          · intro _
            refine ⟨(hgua hb0g).1, ?_⟩
            intro q hq hqpos
            rcases mem_append_singleton hq with h2 | h2
            · exact (hgua hb0g).2 q h2 hqpos
            · rw [h2]
              exact not_lt.mp hlt
          · intro ht
            rw [hb0g] at ht
            exact absurd ht (by simp)
  · rw [if_neg hpos]
    by_cases hnearp : -(1/50) < pairProfit p
    · rw [if_pos hnearp]
      cases best with
      | none =>
        constructor
        · refine iff_of_false (by simp) ?_
          intro hall
          have := hall p hpmem
          linarith
        · intro b hb
          have hbe : b = ⟨ArbType.near_arbitrage, mkBuyVenue p, "", pairProfit p,
              pairProfit p / pairCost p * 100⟩ := (Option.some.inj hb).symm
          subst hbe
          refine ⟨⟨p, hpmem, rfl, rfl⟩, ?_, ?_, ?_⟩
          · refine iff_of_false (by simp) ?_
            rintro ⟨q, hq, hqpos⟩
            rcases mem_append_singleton hq with h2 | h2
            · have := h.1.mp rfl q h2
              linarith
            · rw [h2] at hqpos
              exact hpos hqpos
          · intro ht
            exact absurd ht (by simp)
          · intro _
            refine ⟨⟨hnearp, not_lt.mp hpos⟩, ?_⟩
            intro q hq hqn
            rcases mem_append_singleton hq with h2 | h2
            · have := h.1.mp rfl q h2
              linarith
            · rw [h2]
      | some b0 =>
        obtain ⟨hex, hiff, hgua, hnear0⟩ := h.2 b0 rfl
        dsimp only
        by_cases hcond : b0.type ≠ ArbType.guaranteed_profit ∧ b0.profit < pairProfit p
        · rw [if_pos hcond]
          have hb0n : b0.type = ArbType.near_arbitrage := by
            cases hbt : b0.type with
            | guaranteed_profit => exact absurd hbt hcond.1
            | near_arbitrage => rfl
          have hnoPos : ¬ ∃ q2 ∈ processed, 0 < pairProfit q2 := by
            intro hex2
            have := hiff.mpr hex2
            rw [hb0n] at this
            exact ArbType.noConfusion this
          constructor
          · refine iff_of_false (by simp) ?_
            intro hall
            have := hall p hpmem
            linarith
          · intro b hb
            have hbe : b = ⟨ArbType.near_arbitrage, mkBuyVenue p, "", pairProfit p,
                pairProfit p / pairCost p * 100⟩ := (Option.some.inj hb).symm
            subst hbe
            refine ⟨⟨p, hpmem, rfl, rfl⟩, ?_, ?_, ?_⟩
            · refine iff_of_false (by simp) ?_
              rintro ⟨q, hq, hqpos⟩
              rcases mem_append_singleton hq with h2 | h2
              · exact hnoPos ⟨q, h2, hqpos⟩
              · rw [h2] at hqpos
                exact hpos hqpos
            · intro ht
              exact absurd ht (by simp)
            · intro _
              refine ⟨⟨hnearp, not_lt.mp hpos⟩, ?_⟩
              intro q hq hqn
              rcases mem_append_singleton hq with h2 | h2
              · have := (hnear0 hb0n).2 q h2 hqn
                linarith [hcond.2]
              · rw [h2]
        · rw [if_neg hcond]
          constructor
          · refine iff_of_false (by simp) ?_
            intro hall
            have := hall p hpmem
            linarith
          · intro b hb
            have hbe : b = b0 := (Option.some.inj hb).symm
            subst hbe
            obtain ⟨q0, hq0, hq0e⟩ := hex
            refine ⟨⟨q0, List.mem_append.mpr (Or.inl hq0), hq0e⟩, ?_, ?_, ?_⟩
            · constructor
              · intro hg
                obtain ⟨q, hq, hqpos⟩ := hiff.mp hg
                exact ⟨q, List.mem_append.mpr (Or.inl hq), hqpos⟩
              · rintro ⟨q, hq, hqpos⟩
                rcases mem_append_singleton hq with h2 | h2
                · exact hiff.mpr ⟨q, h2, hqpos⟩
                · rw [h2] at hqpos
                  exact absurd hqpos hpos
            · intro hg
              refine ⟨(hgua hg).1, ?_⟩
              intro q hq hqpos
              rcases mem_append_singleton hq with h2 | h2
              · exact (hgua hg).2 q h2 hqpos
              · rw [h2] at hqpos
                exact absurd hqpos hpos
            · intro hnt
              refine ⟨(hnear0 hnt).1, ?_⟩
              intro q hq hqn
              rcases mem_append_singleton hq with h2 | h2
              · exact (hnear0 hnt).2 q h2 hqn
              · have hnlt : ¬ b.profit < pairProfit p := by
                  intro hlt2
                  exact hcond ⟨by rw [hnt]; exact fun hh => ArbType.noConfusion hh, hlt2⟩
                rw [h2]
                exact not_lt.mp hnlt
    · rw [if_neg hnearp]
      have hple : pairProfit p ≤ -(1/50) := not_lt.mp hnearp
      constructor
      · constructor
        · intro h0
          intro q hq
          rcases mem_append_singleton hq with h2 | h2
          · exact h.1.mp h0 q h2
          · rw [h2]
            exact hple
        · intro hall
          exact h.1.mpr (fun q hq => hall q (List.mem_append.mpr (Or.inl hq)))
      · intro b hb
        obtain ⟨hex, hiff, hgua, hnear0⟩ := h.2 b hb
        obtain ⟨q0, hq0, hq0e⟩ := hex
        refine ⟨⟨q0, List.mem_append.mpr (Or.inl hq0), hq0e⟩, ?_, ?_, ?_⟩
        · constructor
          · intro hg
            obtain ⟨q, hq, hqpos⟩ := hiff.mp hg
            exact ⟨q, List.mem_append.mpr (Or.inl hq), hqpos⟩
          · rintro ⟨q, hq, hqpos⟩
            rcases mem_append_singleton hq with h2 | h2
            · exact hiff.mpr ⟨q, h2, hqpos⟩
            · rw [h2] at hqpos
              linarith
        · intro hg
          refine ⟨(hgua hg).1, ?_⟩
          intro q hq hqpos
          rcases mem_append_singleton hq with h2 | h2
          · exact (hgua hg).2 q h2 hqpos
          · rw [h2] at hqpos
            linarith
        · intro hnt
          refine ⟨(hnear0 hnt).1, ?_⟩
          intro q hq hqn
          rcases mem_append_singleton hq with h2 | h2
          · exact (hnear0 hnt).2 q h2 hqn
          · rw [h2] at hqn
            linarith

theorem goodBest_fold : ∀ (l processed : List (PriceEntry × PriceEntry))
    (best : Option ArbitrageInfo), GoodBest processed best →
    GoodBest (processed ++ l) (l.foldl classifyStep best) := by
  intro l
  induction l with
  | nil =>
    intro processed best h
    simpa using h
  | cons p rest ih =>
    intro processed best h
    have h2 := goodBest_step processed best p h
    have h3 := ih (processed ++ [p]) _ h2
    rw [List.foldl_cons]
    have heq : processed ++ p :: rest = (processed ++ [p]) ++ rest := by simp
    rw [heq]
    exact h3

theorem bestArbitrage_good (pairs : List (PriceEntry × PriceEntry)) :
    GoodBest pairs (bestArbitrage pairs) := by
  have hbase : GoodBest [] none := by
    constructor
    · exact iff_of_true rfl (by simp)
    · intro b hb
      exact absurd hb (by simp)
  have h := goodBest_fold pairs [] none hbase
  simpa [bestArbitrage] using h

/-- C4: detectArbitrage classifies every cross-venue (yes, no) price pair by
profit = 1 − (yesPrice + noPrice): it returns none exactly when every pair
has profit ≤ −0.02; otherwise the kept candidate is the maximum-profit
guaranteed_profit pair when a positive-profit pair exists and the
maximum-profit near_arbitrage pair (profit in (−0.02, 0]) otherwise —
guaranteed always preceding near regardless of magnitude — with severity
80 + profitPercent × 2 for guaranteed and 40 + max(0, profitPercent + 2) × 10
for near, where profitPercent = profit / totalCost × 100. -/
theorem detectArbitrage_spec (g : MarketGroup) (yc nc : OutcomeComparison)
    (hlen : 2 ≤ g.markets.length)
    (hy : (matchOutcomes g.markets).lookup (("yes").data) = some yc)
    (hn : (matchOutcomes g.markets).lookup (("no").data) = some nc)
    (hyl : 2 ≤ yc.prices.length) (hnl : 2 ≤ nc.prices.length) :
    (detectArbitrage g = none ↔ ∀ p ∈ crossPairs yc nc, pairProfit p ≤ -(1/50))
    ∧ ∀ opp, detectArbitrage g = some opp →
        opp.type = OppType.arbitrage
        ∧ ∃ b, opp.details.arbitrageInfo = some b
        ∧ (∃ p ∈ crossPairs yc nc, b.profit = pairProfit p
            ∧ b.profitPercent = pairProfit p / pairCost p * 100)
        ∧ (b.type = ArbType.guaranteed_profit ↔ ∃ p ∈ crossPairs yc nc, 0 < pairProfit p)
        ∧ (b.type = ArbType.guaranteed_profit →
            (0 < b.profit ∧ ∀ p ∈ crossPairs yc nc, 0 < pairProfit p → pairProfit p ≤ b.profit)
            ∧ opp.score = ((80 + b.profitPercent * 2 : ℚ) : ℝ))
        ∧ (b.type = ArbType.near_arbitrage →
            ((-(1/50) < b.profit ∧ b.profit ≤ 0)
              ∧ ∀ p ∈ crossPairs yc nc, -(1/50) < pairProfit p → pairProfit p ≤ b.profit)
            ∧ opp.score = ((40 + max 0 (b.profitPercent + 2) * 10 : ℚ) : ℝ)) := by
  have hgood := bestArbitrage_good (crossPairs yc nc)
  have hcond2 : ¬(yc.prices.length < 2 ∨ nc.prices.length < 2) :=
    not_or.mpr ⟨not_lt.mpr hyl, not_lt.mpr hnl⟩
  rcases hb : bestArbitrage (crossPairs yc nc) with _ | b
  · have hdet : detectArbitrage g = none := by
      rw [detectArbitrage, if_neg (not_lt.mpr hlen), hy, hn]
      dsimp only
      rw [if_neg hcond2, hb]
    rw [hdet]
    constructor
    · exact iff_of_true rfl (hgood.1.mp hb)
    · intro opp hopp
      exact absurd hopp (by simp)
  · have hdet : detectArbitrage g = some (arbOppOf g b) := by
      rw [detectArbitrage, if_neg (not_lt.mpr hlen), hy, hn]
      dsimp only
      rw [if_neg hcond2, hb]
    obtain ⟨hex, hiff, hgua, hnear⟩ := hgood.2 b hb
    rw [hdet]
    constructor
    · refine iff_of_false (by simp) ?_
      intro hall
      have hn2 := hgood.1.mpr hall
      rw [hb] at hn2
      exact absurd hn2 (by simp)
    · intro opp hopp
      have hoeq := (Option.some.inj hopp).symm
      subst hoeq
      refine ⟨rfl, b, rfl, hex, hiff, ?_, ?_⟩
      · intro hg
        refine ⟨hgua hg, ?_⟩
        show (if b.type = ArbType.guaranteed_profit then ((80 + b.profitPercent * 2 : ℚ) : ℝ)
          else ((40 + max 0 (b.profitPercent + 2) * 10 : ℚ) : ℝ)) = ((80 + b.profitPercent * 2 : ℚ) : ℝ)
        rw [if_pos hg]
      · intro hnt
        have hng : b.type ≠ ArbType.guaranteed_profit := by
          rw [hnt]
          exact fun hh => ArbType.noConfusion hh
        refine ⟨hnear hnt, ?_⟩
        show (if b.type = ArbType.guaranteed_profit then ((80 + b.profitPercent * 2 : ℚ) : ℝ)
          else ((40 + max 0 (b.profitPercent + 2) * 10 : ℚ) : ℝ))
          = ((40 + max 0 (b.profitPercent + 2) * 10 : ℚ) : ℝ)
        rw [if_neg hng]

def arbMktA : Market :=
  ⟨"aa", "v1", "V1", [], none, none, none, [⟨("Yes").data, 1/2⟩, ⟨("No").data, 1/2⟩]⟩

def arbMktB : Market :=
  ⟨"ab", "v2", "V2", [], none, none, none, [⟨("Yes").data, 1/4⟩, ⟨("No").data, 1/4⟩]⟩

def arbGroup : MarketGroup := ⟨"ag", [arbMktA, arbMktB]⟩

def arbYesComp : OutcomeComparison :=
  ⟨("Yes").data, [⟨"v1", "V1", 1/2, none⟩, ⟨"v2", "V2", 1/4, none⟩], 1/4, 100⟩

def arbNoComp : OutcomeComparison :=
  ⟨("No").data, [⟨"v1", "V1", 1/2, none⟩, ⟨"v2", "V2", 1/4, none⟩], 1/4, 100⟩

/-- Concrete evaluation of the aligner on the two binary arbitrage-example
markets (Yes/No at 0.5+0.5 on V1 and 0.25+0.25 on V2). -/
theorem arbExample_eval :
    matchOutcomes [arbMktA, arbMktB]
      = [(("yes").data, arbYesComp), (("no").data, arbNoComp)] := by
  have hco : collectOutcomes [arbMktA, arbMktB]
      = [(("yes").data, ⟨("Yes").data,
            [⟨"v1", "V1", 1/2, none⟩, ⟨"v2", "V2", 1/4, none⟩], 0, 0⟩),
         (("no").data, ⟨("No").data,
            [⟨"v1", "V1", 1/2, none⟩, ⟨"v2", "V2", 1/4, none⟩], 0, 0⟩)] := rfl
  have hmax : maxList [(1 : ℚ)/2, 1/4] = 1/2 := by
    rw [maxList]
    simp only [List.foldl_cons, List.foldl_nil]
    exact max_eq_left (by norm_num)
  have hmin : minList [(1 : ℚ)/2, 1/4] = 1/4 := by
    rw [minList]
    simp only [List.foldl_cons, List.foldl_nil]
    exact min_eq_right (by norm_num)
  rw [matchOutcomes, hco]
  simp only [List.map_cons, List.map_nil]
  have hply : priceList (⟨("Yes").data,
      [⟨"v1", "V1", 1/2, none⟩, ⟨"v2", "V2", 1/4, none⟩], 0, 0⟩ : OutcomeComparison)
      = [1/2, 1/4] := rfl
  have hpln : priceList (⟨("No").data,
      [⟨"v1", "V1", 1/2, none⟩, ⟨"v2", "V2", 1/4, none⟩], 0, 0⟩ : OutcomeComparison)
      = [1/2, 1/4] := rfl
  rw [if_pos (show 1 < ((⟨("Yes").data,
      [⟨"v1", "V1", 1/2, none⟩, ⟨"v2", "V2", 1/4, none⟩], 0, 0⟩ :
        OutcomeComparison)).prices.length by norm_num),
    if_pos (show 1 < ((⟨("No").data,
      [⟨"v1", "V1", 1/2, none⟩, ⟨"v2", "V2", 1/4, none⟩], 0, 0⟩ :
        OutcomeComparison)).prices.length by norm_num)]
  rw [hply, hpln, hmax, hmin, if_pos (show (0 : ℚ) < 1/4 by norm_num)]
  rw [show (1 : ℚ)/2 - 1/4 = 1/4 by norm_num,
    show ((1 : ℚ)/4) / (1/4) * 100 = 100 by norm_num]
  rfl

/-- Witness for C4 at the concrete two-market binary group: all hypotheses
of the spec theorem hold, and the none-characterisation it yields is
instantiated there. -/
theorem detectArbitrage_spec_witness :
    2 ≤ arbGroup.markets.length
    ∧ (matchOutcomes arbGroup.markets).lookup (("yes").data) = some arbYesComp
    ∧ (matchOutcomes arbGroup.markets).lookup (("no").data) = some arbNoComp
    ∧ 2 ≤ arbYesComp.prices.length
    ∧ 2 ≤ arbNoComp.prices.length
    ∧ (detectArbitrage arbGroup = none
        ↔ ∀ p ∈ crossPairs arbYesComp arbNoComp, pairProfit p ≤ -(1/50)) := by
  have hy : (matchOutcomes arbGroup.markets).lookup (("yes").data) = some arbYesComp := by
    show (matchOutcomes [arbMktA, arbMktB]).lookup (("yes").data) = some arbYesComp
    rw [arbExample_eval]
    rfl
  have hn : (matchOutcomes arbGroup.markets).lookup (("no").data) = some arbNoComp := by
    show (matchOutcomes [arbMktA, arbMktB]).lookup (("no").data) = some arbNoComp
    rw [arbExample_eval]
    rfl
  exact ⟨by decide, hy, hn, by decide, by decide,
    (detectArbitrage_spec arbGroup arbYesComp arbNoComp (by decide) hy hn
      (by decide) (by decide)).1⟩

end PMTrack
